import Mathlib

/-!
Verification of the Merkle Patricia Trie and RLP core of this repository.

The Go sources are shallowly embedded: bytes are `Nat` (values < 256 where the
Go code holds `byte`), byte strings are `List Nat`, machine words are `Nat`
reduced `% 2^64` where Go would wrap.  Partial Go functions (panics, database
misses, unbounded recursion through the node store) are modelled as
`Option`-returning functions; recursion through hash-node resolution is bounded
by an explicit fuel parameter that strictly decreases at every call, which is
sound because the Go recursion is finite exactly when the store is acyclic.
-/

namespace MPT

/-! ## Keccak-256 (the L0 hash primitive, `crypto.Keccak256` / legacy Keccak) -/

/-- 64-bit left rotation. -/
def rotl (w n : Nat) : Nat := ((w <<< n) ||| (w >>> (64 - n))) % (2 ^ 64)

/-- Keccak-f[1600] round constants. -/
def keccakRC : List Nat :=
  [0x0000000000000001, 0x0000000000008082, 0x800000000000808a, 0x8000000080008000,
   0x000000000000808b, 0x0000000080000001, 0x8000000080008081, 0x8000000000008009,
   0x000000000000008a, 0x0000000000000088, 0x0000000080008009, 0x000000008000000a,
   0x000000008000808b, 0x800000000000008b, 0x8000000000008089, 0x8000000000008003,
   0x8000000000008002, 0x8000000000000080, 0x000000000000800a, 0x800000008000000a,
   0x8000000080008081, 0x8000000000008080, 0x0000000080000001, 0x8000000080008008]

/-- Rotation amounts used by the combined rho-pi step. -/
def keccakRotc : List Nat :=
  [1, 3, 6, 10, 15, 21, 28, 36, 45, 55, 2, 14, 27, 41, 56, 8, 25, 43, 62, 18, 39, 61, 20, 44]

/-- Lane visiting order of the combined rho-pi step. -/
def keccakPiln : List Nat :=
  [10, 7, 11, 17, 18, 3, 5, 16, 8, 21, 24, 4, 15, 23, 19, 13, 12, 2, 20, 14, 22, 9, 6, 1]

/-- Theta step of Keccak-f.  The state is 25 lanes, lane `(x, y)` at index `x + 5*y`. -/
def theta (a : List Nat) : List Nat :=
  let c := (List.range 5).map fun x =>
    a.getD x 0 ^^^ a.getD (x + 5) 0 ^^^ a.getD (x + 10) 0 ^^^
      a.getD (x + 15) 0 ^^^ a.getD (x + 20) 0
  let d := (List.range 5).map fun x => c.getD ((x + 4) % 5) 0 ^^^ rotl (c.getD ((x + 1) % 5) 0) 1
  (List.range 25).map fun i => a.getD i 0 ^^^ d.getD (i % 5) 0

/-- Combined rho (rotation) and pi (lane permutation) steps. -/
def rhopi (a : List Nat) : List Nat :=
  ((keccakPiln.zip keccakRotc).foldl
    (fun st p => (st.1.set p.1 (rotl st.2 p.2), st.1.getD p.1 0))
    (a, a.getD 1 0)).1

/-- Chi step: nonlinear row mixing. -/
def chi (a : List Nat) : List Nat :=
  (List.range 25).map fun i =>
    let y := i / 5 * 5
    let x := i % 5
    a.getD i 0 ^^^ ((a.getD (y + (x + 1) % 5) 0 ^^^ (2 ^ 64 - 1)) &&& a.getD (y + (x + 2) % 5) 0)

/-- Iota step: xor the round constant into lane 0. -/
def iotaStep (a : List Nat) (rc : Nat) : List Nat := a.set 0 (a.getD 0 0 ^^^ rc)

/-- One Keccak-f round. -/
def keccakRound (a : List Nat) (rc : Nat) : List Nat := iotaStep (chi (rhopi (theta a))) rc

/-- The full Keccak-f[1600] permutation (24 rounds). -/
def keccakF (a : List Nat) : List Nat := keccakRC.foldl keccakRound a

/-- Multi-rate padding of legacy Keccak (pad byte 0x01, final bit 0x80), rate 136 bytes. -/
def keccakPad (msg : List Nat) : List Nat :=
  let q := 136 - msg.length % 136
  if q = 1 then msg ++ [0x81]
  else msg ++ [0x01] ++ List.replicate (q - 2) 0 ++ [0x80]

/-- Read lane `i` of a 136-byte block, little-endian. -/
def leLane (block : List Nat) (i : Nat) : Nat :=
  (List.range 8).foldr (fun k acc => acc * 256 + block.getD (8 * i + k) 0) 0

/-- Absorb one 136-byte block into the state and permute. -/
def absorbBlock (s block : List Nat) : List Nat :=
  keccakF ((List.range 25).map fun i => if i < 17 then s.getD i 0 ^^^ leLane block i else s.getD i 0)

/-- Split a byte list into 136-byte chunks (structural accumulator form). -/
def chunks136Aux : List Nat → List Nat → List (List Nat)
  | [], acc => if acc.isEmpty then [] else [acc.reverse]
  | x :: xs, acc =>
    if acc.length = 135 then (x :: acc).reverse :: chunks136Aux xs []
    else chunks136Aux xs (x :: acc)

def chunks136 (l : List Nat) : List (List Nat) := chunks136Aux l []

/-- Keccak-256 of a byte string: 32-byte digest. -/
def keccak256 (msg : List Nat) : List Nat :=
  let s := (chunks136 (keccakPad msg)).foldl absorbBlock (List.replicate 25 0)
  (List.range 32).map fun j => (s.getD (j / 8) 0 >>> (8 * (j % 8))) % 256

/-! ## RLP header primitives (`src/rlp/doc.go`: `putint`, `puthead`, `intsize`) -/

/-- `putint` writes `i` in big-endian order using the least number of bytes
(go: `func putint(b []byte, i uint64) int`, the returned bytes are `b[:size]`).
`byte(x)` truncation is `% 256`. -/
def putint (i : Nat) : List Nat :=
  if i < 2 ^ 8 then [i % 256]
  else if i < 2 ^ 16 then [(i >>> 8) % 256, i % 256]
  else if i < 2 ^ 24 then [(i >>> 16) % 256, (i >>> 8) % 256, i % 256]
  else if i < 2 ^ 32 then [(i >>> 24) % 256, (i >>> 16) % 256, (i >>> 8) % 256, i % 256]
  else if i < 2 ^ 40 then
    [(i >>> 32) % 256, (i >>> 24) % 256, (i >>> 16) % 256, (i >>> 8) % 256, i % 256]
  else if i < 2 ^ 48 then
    [(i >>> 40) % 256, (i >>> 32) % 256, (i >>> 24) % 256, (i >>> 16) % 256, (i >>> 8) % 256,
     i % 256]
  else if i < 2 ^ 56 then
    [(i >>> 48) % 256, (i >>> 40) % 256, (i >>> 32) % 256, (i >>> 24) % 256, (i >>> 16) % 256,
     (i >>> 8) % 256, i % 256]
  else
    [(i >>> 56) % 256, (i >>> 48) % 256, (i >>> 40) % 256, (i >>> 32) % 256, (i >>> 24) % 256,
     (i >>> 16) % 256, (i >>> 8) % 256, i % 256]

/-- `puthead` writes a list or string header (go: `func puthead(buf []byte, smalltag,
largetag byte, size uint64) int`); the emitted bytes are `buf[:returned size]`. -/
def puthead (smalltag largetag size : Nat) : List Nat :=
  if size < 56 then [smalltag + size]
  else (largetag + (putint size).length) :: putint size

/-- Big-endian value of a byte list (to state that `putint` is a correct encoding). -/
def beVal (l : List Nat) : Nat := l.foldl (fun a b => a * 256 + b) 0

/-- RLP encoding of a byte string (`encBuffer.writeBytes`: a single byte `≤ 0x7f`
is its own encoding, otherwise a string header followed by the bytes). -/
def encString (b : List Nat) : List Nat :=
  if b.length = 1 ∧ b.headD 0 ≤ 0x7f then b else puthead 0x80 0xB7 b.length ++ b

/-! ## Key encodings (`src/trie/node_test.go` second half: the encoding functions) -/

/-- `hasTerm` returns whether a hex key ends with the terminator nibble 16. -/
def hasTerm (s : List Nat) : Bool := s.getLast? == some 16

/-- A single step of `decodeNibbles`: go `bytes[bi] = nibbles[ni]<<4 | nibbles[ni+1]`
on `byte` values (truncating shift, then or). -/
def nibblePair (a b : Nat) : Nat := ((a <<< 4) % 256) ||| b

/-- `decodeNibbles` packs nibbles two-per-byte (callers always pass an even count). -/
def decodeNibbles : List Nat → List Nat
  | a :: b :: rest => nibblePair a b :: decodeNibbles rest
  | _ => []

/-- `hexToCompact` converts a hex-nibble key to compact (hex-prefix) form. -/
def hexToCompact (hex : List Nat) : List Nat :=
  let terminator : Nat := if hasTerm hex then 1 else 0
  let hex := if hasTerm hex then hex.dropLast else hex
  if hex.length % 2 = 1 then
    ((terminator <<< 5) ||| (1 <<< 4) ||| hex.headD 0) :: decodeNibbles (hex.drop 1)
  else
    (terminator <<< 5) :: decodeNibbles hex

/-- `keybytesToHex` expands each key byte into two nibbles and appends terminator 16. -/
def keybytesToHex (str : List Nat) : List Nat :=
  (str.map fun b => [b / 16, b % 16]).flatten ++ [16]

/-- `compactToHex` converts a compact key back to hex-nibble form. -/
def compactToHex (compact : List Nat) : List Nat :=
  if compact = [] then compact
  else
    let base := keybytesToHex compact
    let base := if base.headD 0 < 2 then base.dropLast else base
    let chop := 2 - (base.headD 0 &&& 1)
    base.drop chop

/-- The write loop of `hexToCompactInPlace`: while `ni < hexLen`, set
`hex[bi] = hex[ni]<<4 | hex[ni+1]` and advance `bi, ni = bi+1, ni+2`.
Reads and writes go through the same buffer, exactly as in the Go code.  The
structural `fuel` only bounds the iteration count; the caller passes at least
`hexLen`, which always suffices since `ni` advances by two. -/
def compactLoop : Nat → List Nat → Nat → Nat → Nat → List Nat
  | 0, buf, _, _, _ => buf
  | fuel + 1, buf, bi, ni, hexLen =>
    if ni < hexLen then
      compactLoop fuel (buf.set bi (nibblePair (buf.getD ni 0) (buf.getD (ni + 1) 0))) (bi + 1)
        (ni + 2) hexLen
    else buf

/-- `hexToCompactInPlace` overwrites the input buffer and returns the length of the
compact form inside it.  The final write `hex[0] = firstByte` panics (modelled as
`none`) when the buffer is empty. -/
def hexToCompactInPlace (hex : List Nat) : Option (Nat × List Nat) :=
  let hexLen := if hasTerm hex then hex.length - 1 else hex.length
  let firstByte : Nat := if hasTerm hex then 1 <<< 5 else 0
  let binLen := hexLen / 2 + 1
  let (firstByte, ni) :=
    if hexLen % 2 = 1 then (firstByte ||| (1 <<< 4) ||| hex.headD 0, 1) else (firstByte, 0)
  let buf := compactLoop hex.length hex 1 ni hexLen
  if buf.length = 0 then none else some (binLen, buf.set 0 firstByte)

/-- `prefixLen` returns the length of the common prefix of `a` and `b`. -/
def prefixLen : List Nat → List Nat → Nat
  | a :: as', b :: bs' => if a = b then prefixLen as' bs' + 1 else 0
  | _, _ => 0

/-! ## Node algebra

The node type itself lives in the repository's `node.go`, which is not among the
provided sources; its five variants and field shapes are fully determined by
their uses in `trie.go` and `hasher.go` and by §3.2 of the specification.
`null` is Go's nil interface value; a full node holds 17 children. -/

inductive Node where
  | null
  | short (key : List Nat) (val : Node)
  | full (children : List Node)
  | value (bytes : List Nat)
  | hash (h : List Nat)

def Node.isNull : Node → Bool
  | .null => true
  | _ => false

def Node.isValue : Node → Bool
  | .value _ => true
  | _ => false

def Node.isShort : Node → Bool
  | .short _ _ => true
  | _ => false

def Node.isFull : Node → Bool
  | .full _ => true
  | _ => false

def Node.isHash : Node → Bool
  | .hash _ => true
  | _ => false

/-- Projection used to model Go's `switch child := child.(type) { case *shortNode: ... }`. -/
def Node.asShort : Node → Option (List Nat × Node)
  | .short k v => some (k, v)
  | _ => none

/-- The node store: `db.node(hash)` returns the decoded node for a hash, modelled as
an association list from 32-byte hashes to decoded nodes. -/
def DB := List (List Nat × Node)

/-- `t.db.node(hash)` (`resolveHash` without the error wrapper): `none` is a
`MissingNodeError`. -/
def dbNode (db : DB) (h : List Nat) : Option Node :=
  (List.find? (fun p => p.1 == h) db).map (fun p => p.2)

/-- `t.resolve(n, prefix)`: resolve a hash node through the store, leave others alone. -/
def resolve (db : DB) : Node → Option Node
  | .hash h => dbNode db h
  | n => some n

/-- The 17 nil children of a freshly allocated `fullNode`. -/
def emptyChildren : List Node := List.replicate 17 Node.null

/-- Indices of the non-nil children of a full node (for delete's reduction scan). -/
def nonNilIdx (ch : List Node) : List Nat :=
  (ch.enum.filter (fun p => !p.2.isNull)).map (fun p => p.1)

/-- Recursive characterisation of `nonNilIdx` starting at index `k` (proof device). -/
def nonNilIdxFrom : Nat → List Node → List Nat
  | _, [] => []
  | k, c :: rest => if c.isNull then nonNilIdxFrom (k + 1) rest else k :: nonNilIdxFrom (k + 1) rest

/-! ## Trie operations (`src/trie/trie.go`)

Each operation takes the node store and a fuel bound; fuel decreases at every
recursive call, so `none` covers fuel exhaustion as well as Go's failure modes
(a `MissingNodeError` from the store, or a panic on malformed input).  The
`prefix` argument of the Go functions is dropped: it only feeds the tracer and
error paths, never the result.  Dirty-flag bookkeeping (`t.newFlag()`) carries
no data in this model. -/

/-- `t.insert(n, prefix, key, value)` returning (dirty, new node). -/
def insert (db : DB) : Nat → Node → List Nat → Node → Option (Bool × Node)
  | 0, _, _, _ => none
  | fuel + 1, n, key, value =>
    if key = [] then
      match n, value with
      | .value v, .value vb => some (decide ¬v = vb, .value vb)
      | .value _, _ => none
      | _, _ => some (true, value)
    else
      match n with
      | .short nKey nVal =>
        let matchlen := prefixLen key nKey
        if matchlen = nKey.length then
          match insert db fuel nVal (key.drop matchlen) value with
          | none => none
          | some (dirty, nn) =>
            if dirty then some (true, .short nKey nn) else some (false, n)
        else
          if key.length ≤ matchlen then none
          else if 16 < nKey.getD matchlen 0 ∨ 16 < key.getD matchlen 0 then none
          else
            match insert db fuel .null (nKey.drop (matchlen + 1)) nVal,
                  insert db fuel .null (key.drop (matchlen + 1)) value with
            | some (_, c1), some (_, c2) =>
              let branch : Node :=
                .full ((emptyChildren.set (nKey.getD matchlen 0) c1).set (key.getD matchlen 0) c2)
              if matchlen = 0 then some (true, branch)
              else some (true, .short (key.take matchlen) branch)
            | _, _ => none
      | .full ch =>
        match key with
        | [] => none
        | k0 :: rest =>
          if ch.length ≤ k0 then none
          else
            match insert db fuel (ch.getD k0 .null) rest value with
            | none => none
            | some (dirty, nn) =>
              if dirty then some (true, .full (ch.set k0 nn)) else some (false, n)
      | .null => some (true, .short key value)
      | .hash h =>
        match dbNode db h with
        | none => none
        | some rn =>
          match insert db fuel rn key value with
          | none => none
          | some (dirty, nn) =>
            if dirty then some (true, nn) else some (false, rn)
      | .value _ => none

/-- `t.delete(n, prefix, key)` returning (dirty, new node). -/
def delete (db : DB) : Nat → Node → List Nat → Option (Bool × Node)
  | 0, _, _ => none
  | fuel + 1, n, key =>
    match n with
    | .short nKey nVal =>
      let matchlen := prefixLen key nKey
      if matchlen < nKey.length then some (false, n)
      else if matchlen = key.length then some (true, .null)
        else
          match delete db fuel nVal (key.drop nKey.length) with
          | none => none
          | some (dirty, child) =>
            if !dirty then some (false, n)
            else
              match child.asShort with
              | some (ck, cv) => some (true, .short (nKey ++ ck) cv)
              | none => some (true, .short nKey child)
    | .full ch =>
      match key with
      | [] => none
      | k0 :: rest =>
        if ch.length ≤ k0 then none
        else
          match delete db fuel (ch.getD k0 .null) rest with
          | none => none
          | some (dirty, nn) =>
            if !dirty then some (false, n)
            else
              let ch' := ch.set k0 nn
              if !nn.isNull then some (true, .full ch')
              else
                match nonNilIdx ch' with
                | [pos] =>
                  if pos ≠ 16 then
                    match resolve db (ch'.getD pos .null) with
                    | none => none
                    | some cnode =>
                      match cnode.asShort with
                      | some (ck, cv) => some (true, .short (pos :: ck) cv)
                      | none => some (true, .short [pos] (ch'.getD pos .null))
                  else some (true, .short [16] (ch'.getD 16 .null))
                | _ => some (true, .full ch')
    | .value _ => some (true, .null)
    | .null => some (false, .null)
    | .hash h =>
      match dbNode db h with
      | none => none
      | some rn =>
        match delete db fuel rn key with
        | none => none
        | some (dirty, nn) =>
          if !dirty then some (false, rn) else some (true, nn)

/-- `t.tryGet(origNode, key, pos)`; only the value result is modelled (the
`newnode`/`didResolve` pair merely re-roots resolved nodes).  The remaining key
`key[pos:]` is passed directly.  `some none` is a clean miss, `some (some v)` a
hit, `none` an error (missing node / fuel / the panic on a malformed node). -/
def tryGet (db : DB) : Nat → Node → List Nat → Option (Option (List Nat))
  | 0, _, _ => none
  | fuel + 1, n, key =>
    match n with
    | .null => some none
    | .value v => some (some v)
    | .short nKey nVal =>
      if key.length < nKey.length ∨ ¬key.take nKey.length = nKey then some none
      else tryGet db fuel nVal (key.drop nKey.length)
    | .full ch =>
      match key with
      | [] => none
      | k0 :: rest =>
        if ch.length ≤ k0 then none
        else tryGet db fuel (ch.getD k0 .null) rest
    | .hash h =>
      match dbNode db h with
      | none => none
      | some child => tryGet db fuel child key

/-- The trie handle.  Of the Go fields only the root matters to these claims:
`db` is passed explicitly, `owner` only labels errors, `unhashed` only toggles
parallel hashing, and the tracer records diffs without affecting results. -/
structure TrieM where
  root : Node

/-- `TryUpdate(key, value)`: a non-empty value inserts, an empty one deletes. -/
def tryUpdate (db : DB) (fuel : Nat) (t : TrieM) (key value : List Nat) : Option TrieM :=
  let k := keybytesToHex key
  if value ≠ [] then
    match insert db fuel t.root k (.value value) with
    | some (_, n) => some ⟨n⟩
    | none => none
  else
    match delete db fuel t.root k with
    | some (_, n) => some ⟨n⟩
    | none => none

/-- `TryDelete(key)`. -/
def tryDelete (db : DB) (fuel : Nat) (t : TrieM) (key : List Nat) : Option TrieM :=
  match delete db fuel t.root (keybytesToHex key) with
  | some (_, n) => some ⟨n⟩
  | none => none

/-- `TryGet(key)` (and `Get`, which discards the error). -/
def tryGetKey (db : DB) (fuel : Nat) (t : TrieM) (key : List Nat) : Option (Option (List Nat)) :=
  tryGet db fuel t.root (keybytesToHex key)

/-! ## Node encoding and the hasher (`src/trie/hasher.go`)

`node.encode` itself lives in the repository's `node.go`/`node_enc.go`, which are
not among the provided sources.  Modelled from the spec: §4.4 — a value node is
the RLP string of its content; a short node the RLP list `[key, child]`; a full
node the RLP list of its 17 children, a nil child encoding as the empty string;
a hash node the RLP string of the 32 hash bytes.  Embedded children contribute
their full encoding in place. -/

mutual

/-- Modelled from the spec: `node.encode` of `node_enc.go` (see §4.4).  A nil
child position encodes as the empty string `0x80`, which doubles as the
(unreachable) encoding of a nil node. -/
def encodeNode : Node → List Nat
  | .short key val =>
    let payload := encString key ++ encodeNode val
    puthead 0xC0 0xF7 payload.length ++ payload
  | .full ch =>
    let payload := encodeChildren ch
    puthead 0xC0 0xF7 payload.length ++ payload
  | .value v => encString v
  | .hash h => encString h
  | .null => [0x80]

def encodeChildren : List Node → List Nat
  | [] => []
  | c :: rest => encodeNode c ++ encodeChildren rest

end

/-- `h.shortnodeToHash(n, force)`: keep the node when its encoding is under
32 bytes and hashing is not forced, otherwise produce the Keccak-256 hash node. -/
def shortnodeToHash (n : Node) (force : Bool) : Node :=
  let enc := encodeNode n
  if enc.length < 32 ∧ force = false then n else .hash (keccak256 enc)

/-- `h.fullnodeToHash(n, force)`: same rule for full nodes. -/
def fullnodeToHash (n : Node) (force : Bool) : Node :=
  let enc := encodeNode n
  if enc.length < 32 ∧ force = false then n else .hash (keccak256 enc)

mutual

/-- `h.hash(n, force)` (the `hashed` result): collapse a node to its hashed form.
The hash-cache in `nodeFlag` only memoises this function and is dropped.
Short-node keys are converted to compact form, children are hashed with
`force=false`, nil children of a full node become `nilValueNode`.  Parallel and
sequential child hashing agree, so only the sequential form is modelled. -/
def foldHash : Node → Bool → Node
  | .short key val, force =>
    let collapsedVal :=
      match val with
      | .full _ | .short _ _ => foldHash val false
      | other => other
    shortnodeToHash (.short (hexToCompact key) collapsedVal) force
  | .full ch, force => fullnodeToHash (.full (foldChildren ch 0)) force
  | n, _ => n

/-- `hashFullNodeChildren`: hash children 0–15, leave the value slot alone. -/
def foldChildren : List Node → Nat → List Node
  | [], _ => []
  | c :: rest, i =>
    (if 16 ≤ i then c
     else
       match c with
       | .null => .value []
       | _ => foldHash c false) :: foldChildren rest (i + 1)

end

/-- The `emptyRoot` constant of `trie.go`:
`56e81f171bcc55a6ff8345e692c0f86e5b48e01b996cadc001622fb5e363b421`. -/
def emptyRootBytes : List Nat :=
  [0x56, 0xe8, 0x1f, 0x17, 0x1b, 0xcc, 0x55, 0xa6, 0xff, 0x83, 0x45, 0xe6, 0x92, 0xc0, 0xf8, 0x6e,
   0x5b, 0x48, 0xe0, 0x1b, 0x99, 0x6c, 0xad, 0xc0, 0x01, 0x62, 0x2f, 0xb5, 0xe3, 0x63, 0xb4, 0x21]

/-- `t.Hash()` via `hashRoot`: the empty-root constant for a nil root, otherwise
the root folded with `force=true`.  The Go code casts the result to `hashNode`;
the unreachable non-hash case is mapped to `[]`. -/
def Hash (t : TrieM) : List Nat :=
  match t.root with
  | .null => emptyRootBytes
  | r =>
    match foldHash r true with
    | .hash h => h
    | _ => []

/-! ## Construction (`New` / `newTrie`) -/

/-- Outcome of `newTrie`: a Go panic, a `MissingNodeError`, or a trie. -/
inductive NewOutcome where
  | panicked (msg : String)
  | missing
  | ok (t : TrieM)

/-- The zero `common.Hash`. -/
def zeroHash : List Nat := List.replicate 32 0

set_option linter.unusedVariables false in
/-- `newTrie(owner, root, db)`: panics when `db` is nil; resolves the root
through the store when it is neither the zero hash nor `emptyRoot`.  The owner
tag only namespaces errors and is carried for signature fidelity. -/
def newTrie (owner root : List Nat) (db : Option DB) : NewOutcome :=
  match db with
  | none => .panicked "trie.New called without a database"
  | some db =>
    if root ≠ zeroHash ∧ root ≠ emptyRootBytes then
      match dbNode db root with
      | some rootnode => .ok ⟨rootnode⟩
      | none => .missing
    else .ok ⟨.null⟩

/-- `New` simply forwards to `newTrie`. -/
def New (owner root : List Nat) (db : Option DB) : NewOutcome := newTrie owner root db

/-! ## Shape predicates

`validKey` describes the hex keys produced by `keybytesToHex`: non-empty, all
nibbles below 16, terminated by 16.  `WF` is the well-formedness invariant of
reachable in-memory tries (§3.2): short keys are non-empty valid nibble runs, a
terminated short key holds a value (leaf) and an unterminated one a branch
(extension) — hence no short-short chains; full nodes have 17 children, at
least two of them non-nil, values only in the 17th slot.  `hashFree` singles
out fully materialised (in-memory) tries. -/

def validKey (k : List Nat) : Bool :=
  !k.isEmpty && (k.getLast? == some 16) && k.dropLast.all (fun x => decide (x < 16))

mutual

def WF : Node → Bool
  | .null => true
  | .value _ => true
  | .hash _ => true
  | .short k v =>
    !k.isEmpty && k.dropLast.all (fun x => decide (x < 16)) &&
      (match k.getLast? with
       | some 16 => v.isValue
       | some x => decide (x < 16) && (v.isFull || v.isHash)
       | none => false) &&
      WF v
  | .full ch =>
    decide (ch.length = 17) && decide (2 ≤ (nonNilIdx ch).length) && WFchildren ch 0

def WFchildren : List Node → Nat → Bool
  | [], _ => true
  | c :: rest, i =>
    (if i < 16 then !c.isValue else c.isNull || c.isValue) && WF c && WFchildren rest (i + 1)

end

mutual

def hashFree : Node → Bool
  | .short _ v => hashFree v
  | .full ch => hashFreeChildren ch
  | .hash _ => false
  | _ => true

def hashFreeChildren : List Node → Bool
  | [] => true
  | c :: rest => hashFree c && hashFreeChildren rest

end

mutual

/-- Invariants 1–2 of §3.2, exactly as claimed: no short node has a short child,
and no full node has fewer than two non-nil entries. -/
def invariant : Node → Bool
  | .short _ v => !v.isShort && invariant v
  | .full ch => decide (2 ≤ (nonNilIdx ch).length) && invariantChildren ch
  | _ => true

def invariantChildren : List Node → Bool
  | [] => true
  | c :: rest => invariant c && invariantChildren rest

end

/-- Sequential writes into a buffer starting at position `i` (the denotation of
the in-place loop, used to reason about `compactLoop`). -/
def overwrite : List Nat → Nat → List Nat → List Nat
  | l, _, [] => l
  | l, i, x :: xs => overwrite (l.set i x) (i + 1) xs

/-! ## General lemmas -/

theorem keccak256_length (msg : List Nat) : (keccak256 msg).length = 32 := by
  simp [keccak256]

theorem lor_two_pow_mul_add (a b n : Nat) (hb : b < 2 ^ n) : (2 ^ n * a) ||| b = 2 ^ n * a + b := by
  apply Nat.eq_of_testBit_eq
  intro j
  rw [Nat.testBit_lor, Nat.testBit_mul_pow_two_add a hb, Nat.testBit_mul_pow_two]
  rcases Nat.lt_or_ge j n with h | h
  · have hj : ¬j ≥ n := by omega
    simp [h, hj]
  · have hbb : b.testBit j = false :=
      Nat.testBit_lt_two_pow (lt_of_lt_of_le hb (Nat.pow_le_pow_right (by norm_num) h))
    have hj : ¬j < n := by omega
    simp [hj, h, hbb]

theorem nibblePair_eq (a b : Nat) (ha : a < 16) (hb : b < 16) : nibblePair a b = 16 * a + b := by
  have h1 : a <<< 4 = 16 * a := by rw [Nat.shiftLeft_eq]; ring
  have h2 : (16 * a) % 256 = 16 * a := Nat.mod_eq_of_lt (by omega)
  have h3 : (16 * a) ||| b = 16 * a + b := by
    have := lor_two_pow_mul_add a b 4 (by omega)
    simpa [Nat.pow_succ, Nat.mul_comm] using this
  simp [nibblePair, h1, h2, h3]

theorem decodeNibbles_length (l : List Nat) : (decodeNibbles l).length = l.length / 2 := by
  induction l using decodeNibbles.induct with
  | case1 a b rest ih => simp [decodeNibbles, ih]; omega
  | case2 t h =>
    match t, h with
    | [], _ => simp [decodeNibbles]
    | [a], _ => simp [decodeNibbles]
    | a :: b :: rest, h => exact absurd (h a b rest rfl) (by simp)

/-- Unpacking the packed nibbles recovers an even-length nibble list. -/
theorem unpack_decodeNibbles (l : List Nat) (hs : ∀ x ∈ l, x < 16) (hlen : l.length % 2 = 0) :
    ((decodeNibbles l).map fun b => [b / 16, b % 16]).flatten = l := by
  induction l using decodeNibbles.induct with
  | case1 a b rest ih =>
    have ha : a < 16 := hs a (by simp)
    have hb : b < 16 := hs b (by simp)
    have heq : nibblePair a b = 16 * a + b := nibblePair_eq a b ha hb
    have hdiv : (16 * a + b) / 16 = a := by omega
    have hmod : (16 * a + b) % 16 = b := by omega
    simp only [decodeNibbles, List.map_cons, List.flatten_cons, heq, hdiv, hmod]
    rw [ih (fun x hx => hs x (by simp [hx])) (by simp at hlen ⊢; omega)]
    simp
  | case2 t h =>
    match t, h, hlen with
    | [], _, _ => simp [decodeNibbles]
    | [a], _, hlen => simp at hlen
    | a :: b :: rest, h, _ => exact absurd (h a b rest rfl) (by simp)

/-! ## Claim C10 -/

/-- Claim C10: for every owner and every root hash — including the zero hash and
`EMPTY_ROOT`, for which the trie would be initially empty — `New` with a nil
database panics with message "trie.New called without a database" instead of
returning a (trie, error) pair. -/
theorem C10_new_without_db_panics (owner root : List Nat) :
    New owner root none = NewOutcome.panicked "trie.New called without a database" := rfl

/-! ## Claim C3 -/

set_option maxRecDepth 100000 in
/-- Claim C3: `Hash()` on an empty trie (nil root) returns exactly the 32-byte
constant `Keccak256(0x80)`, which is
`0x56e81f171bcc55a6ff8345e692c0f86e5b48e01b996cadc001622fb5e363b421`. -/
theorem C3_empty_trie_hash :
    Hash ⟨Node.null⟩ = emptyRootBytes ∧ emptyRootBytes = keccak256 [0x80] ∧
      emptyRootBytes.length = 32 := by
  refine ⟨rfl, ?_, rfl⟩
  decide

/-! ## Claim C7 -/

/-- Claim C7: `hash(n, force)` on short and full nodes returns the node itself
(embedded) iff its RLP encoding is shorter than 32 bytes and `force` is false;
otherwise it returns the 32-byte Keccak-256 hash node of the encoding — in
particular `force = true` always produces a hash node. -/
theorem C7_embedding_rule (k : List Nat) (c : Node) (ch : List Node) (force : Bool) :
    (shortnodeToHash (.short k c) force = .short k c ↔
      (encodeNode (.short k c)).length < 32 ∧ force = false) ∧
    (¬((encodeNode (.short k c)).length < 32 ∧ force = false) →
      shortnodeToHash (.short k c) force = .hash (keccak256 (encodeNode (.short k c))) ∧
        (keccak256 (encodeNode (.short k c))).length = 32) ∧
    (fullnodeToHash (.full ch) force = .full ch ↔
      (encodeNode (.full ch)).length < 32 ∧ force = false) ∧
    (¬((encodeNode (.full ch)).length < 32 ∧ force = false) →
      fullnodeToHash (.full ch) force = .hash (keccak256 (encodeNode (.full ch))) ∧
        (keccak256 (encodeNode (.full ch))).length = 32) := by
  have hs : shortnodeToHash (.short k c) force =
      if (encodeNode (.short k c)).length < 32 ∧ force = false then .short k c
      else .hash (keccak256 (encodeNode (.short k c))) := rfl
  have hf : fullnodeToHash (.full ch) force =
      if (encodeNode (.full ch)).length < 32 ∧ force = false then .full ch
      else .hash (keccak256 (encodeNode (.full ch))) := rfl
  rw [hs, hf]
  by_cases h1 : (encodeNode (.short k c)).length < 32 ∧ force = false <;>
    by_cases h2 : (encodeNode (.full ch)).length < 32 ∧ force = false <;>
      simp_all [keccak256_length]

/-! ## Claim C8 -/

/-- Claim C8: the RLP header is the single byte `smalltag + size` when
`size ≤ 55`, and otherwise `largetag + len(size_BE)` followed by the size in
big-endian with no leading zero byte. -/
theorem C8_rlp_header (smalltag largetag size : Nat) :
    (size ≤ 55 → puthead smalltag largetag size = [smalltag + size]) ∧
    (55 < size → size < 2 ^ 64 →
      puthead smalltag largetag size = (largetag + (putint size).length) :: putint size ∧
        beVal (putint size) = size ∧ (putint size).headD 0 ≠ 0) := by
  constructor
  · intro h
    unfold puthead
    rw [if_pos (by omega)]
  · intro h1 h2
    refine ⟨by unfold puthead; rw [if_neg (by omega)], ?_, ?_⟩ <;>
      · unfold putint
        split_ifs <;> simp_all [beVal, Nat.shiftRight_eq_div_pow] <;> omega

/-- Witness for C7: at the root (`force = true`) even a tiny leaf is hashed. -/
theorem C7_embedding_rule_witness :
    shortnodeToHash (.short [16] (.value [1])) true =
        .hash (keccak256 (encodeNode (.short [16] (.value [1])))) ∧
      (keccak256 (encodeNode (.short [16] (.value [1])))).length = 32 ∧
      shortnodeToHash (.short [16] (.value [1])) false = .short [16] (.value [1]) := by
  refine ⟨?_, ?_, ?_⟩
  · exact ((C7_embedding_rule [16] (.value [1]) emptyChildren true).2.1 (by decide)).1
  · exact ((C7_embedding_rule [16] (.value [1]) emptyChildren true).2.1 (by decide)).2
  · exact (C7_embedding_rule [16] (.value [1]) emptyChildren false).1.2 (by decide)

/-- Witness for C8 at a small and a large size, with the string and list tags. -/
theorem C8_rlp_header_witness :
    puthead 0x80 0xB7 3 = [0x83] ∧ puthead 0xC0 0xF7 300 = [0xF9, 1, 44] ∧
      beVal (putint 300) = 300 ∧ (putint 300).headD 0 ≠ 0 := by
  refine ⟨(C8_rlp_header 0x80 0xB7 3).1 (by decide), ?_⟩
  have h := (C8_rlp_header 0xC0 0xF7 300).2 (by decide) (by decide)
  refine ⟨?_, h.2.1, h.2.2⟩
  rw [h.1]
  decide

/-! ## Claim C9

The claim says `New(owner, rootHash, db)` with a non-special root hash keeps the
root as a lazy hash-node reference and does not touch the store until a later
operation.  The code disagrees: `newTrie` calls `resolveHash` immediately, so
the store is read during `New`, a missing root surfaces as `MissingNodeError`
from `New` itself, and the constructed trie's root is the decoded node. -/

/-- A root hash that is neither the zero hash nor the empty root. -/
def c9Hash : List Nat := List.replicate 32 1

/-- A store holding a decoded node for `c9Hash`. -/
def c9Db : DB := [(c9Hash, .short [16] (.value [7]))]

/-- Counterexample to C9: after `New` on a store containing the root, the trie's
root is the decoded short node, not a hash-node reference to the root hash; and
with an empty store `New` already fails with `MissingNodeError`, which would be
impossible if the store were not read until a later operation. -/
theorem C9_counterexample :
    newTrie [] c9Hash (some c9Db) = .ok ⟨.short [16] (.value [7])⟩ ∧
      (Node.short [16] (.value [7])).isHash = false ∧
      newTrie [] c9Hash (some []) = .missing := by
  refine ⟨?_, rfl, ?_⟩ <;> rfl

/-- Claim C9 as amended: when `rootHash ∉ {0, EMPTY_ROOT}`, `New` resolves the
root eagerly — it reads the store during construction, returns the trie with the
decoded root node on success and `MissingNodeError` when the store misses. -/
theorem C9_eager_root_resolution (owner root : List Nat) (db : DB) (n : Node)
    (h1 : root ≠ zeroHash) (h2 : root ≠ emptyRootBytes) :
    (dbNode db root = some n → newTrie owner root (some db) = .ok ⟨n⟩) ∧
    (dbNode db root = none → newTrie owner root (some db) = .missing) := by
  constructor <;> intro h <;> simp [newTrie, h1, h2, h]

/-- Witness for the amended C9 on a concrete store. -/
theorem C9_eager_root_resolution_witness :
    newTrie [] c9Hash (some c9Db) = .ok ⟨.short [16] (.value [7])⟩ ∧
      newTrie [2] c9Hash (some []) = .missing := by
  constructor
  · exact (C9_eager_root_resolution [] c9Hash c9Db (.short [16] (.value [7]))
      (by decide) (by decide)).1 (by rfl)
  · exact (C9_eager_root_resolution [2] c9Hash [] (.value [])
      (by decide) (by decide)).2 (by rfl)

/-! ## Claim C4 -/

theorem compactToHex_even_term (s : List Nat) (hs : ∀ x ∈ s, x < 16)
    (hlen : s.length % 2 = 0) : compactToHex (32 :: decodeNibbles s) = s ++ [16] := by
  have hb : keybytesToHex (32 :: decodeNibbles s) = 2 :: 0 :: (s ++ [16]) := by
    simp [keybytesToHex, unpack_decodeNibbles s hs hlen]
  rw [compactToHex, if_neg (by simp)]
  simp only [hb]
  norm_num

theorem compactToHex_even_noterm (s : List Nat) (hs : ∀ x ∈ s, x < 16)
    (hlen : s.length % 2 = 0) : compactToHex (0 :: decodeNibbles s) = s := by
  have hb : keybytesToHex (0 :: decodeNibbles s) = 0 :: 0 :: (s ++ [16]) := by
    simp [keybytesToHex, unpack_decodeNibbles s hs hlen]
  rw [compactToHex, if_neg (by simp)]
  simp only [hb]
  norm_num
  rw [show (0 : Nat) :: (s ++ [16]) = (0 :: s) ++ [16] from by simp, List.dropLast_concat]
  simp

theorem compactToHex_odd_term (s0 : Nat) (s' : List Nat) (h0 : s0 < 16)
    (hs : ∀ x ∈ s', x < 16) (hlen : s'.length % 2 = 0) :
    compactToHex ((48 ||| s0) :: decodeNibbles s') = s0 :: (s' ++ [16]) := by
  have hc : (48 : Nat) ||| s0 = 48 + s0 := by
    have := lor_two_pow_mul_add 3 s0 4 (by omega)
    simpa using this
  have hb : keybytesToHex ((48 ||| s0) :: decodeNibbles s') = 3 :: s0 :: (s' ++ [16]) := by
    have hd : (48 + s0) / 16 = 3 := by omega
    have hm : (48 + s0) % 16 = s0 := by omega
    simp [keybytesToHex, unpack_decodeNibbles s' hs hlen, hc, hd, hm]
  rw [compactToHex, if_neg (by simp)]
  simp only [hb]
  norm_num

theorem compactToHex_odd_noterm (s0 : Nat) (s' : List Nat) (h0 : s0 < 16)
    (hs : ∀ x ∈ s', x < 16) (hlen : s'.length % 2 = 0) :
    compactToHex ((16 ||| s0) :: decodeNibbles s') = s0 :: s' := by
  have hc : (16 : Nat) ||| s0 = 16 + s0 := by
    have := lor_two_pow_mul_add 1 s0 4 (by omega)
    simpa using this
  have hb : keybytesToHex ((16 ||| s0) :: decodeNibbles s') = 1 :: s0 :: (s' ++ [16]) := by
    have hd : (16 + s0) / 16 = 1 := by omega
    have hm : (16 + s0) % 16 = s0 := by omega
    simp [keybytesToHex, unpack_decodeNibbles s' hs hlen, hc, hd, hm]
  rw [compactToHex, if_neg (by simp)]
  simp only [hb]
  norm_num
  rw [show s0 :: (s' ++ [16]) = (s0 :: s') ++ [16] from by simp, List.dropLast_concat]

/-- Claim C4: for every valid hex-nibble key (each element below 16, except an
optional single trailing terminator 16), `compactToHex (hexToCompact h) = h`. -/
theorem C4_key_encoding_roundtrip (h : List Nat)
    (h1 : ∀ x ∈ h.dropLast, x < 16) (h2 : ∀ x, h.getLast? = some x → x ≤ 16) :
    compactToHex (hexToCompact h) = h := by
  by_cases ht : hasTerm h
  · have hne : h ≠ [] := by
      intro e
      rw [e] at ht
      simp [hasTerm] at ht
    have hlast : h.getLast hne = 16 := by
      have h16 : h.getLast? = some 16 := by simpa [hasTerm] using ht
      have := List.getLast?_eq_getLast h hne
      rw [this] at h16
      exact Option.some_injective _ h16
    have hsplit : h.dropLast ++ [16] = h := by
      have := List.dropLast_append_getLast hne
      rw [hlast] at this
      exact this
    have hxc : hexToCompact h =
        if h.dropLast.length % 2 = 1 then
          (48 ||| h.dropLast.headD 0) :: decodeNibbles (h.dropLast.drop 1)
        else 32 :: decodeNibbles h.dropLast := by
      simp [hexToCompact, ht]
    by_cases hp : h.dropLast.length % 2 = 1
    · obtain ⟨s0, s', hcons⟩ : ∃ s0 s', h.dropLast = s0 :: s' := by
        cases hd : h.dropLast with
        | nil => rw [hd] at hp; simp at hp
        | cons a t => exact ⟨a, t, rfl⟩
      rw [hxc, if_pos hp, hcons]
      have h0 : s0 < 16 := h1 s0 (by rw [hcons]; simp)
      have hs' : ∀ x ∈ s', x < 16 := fun x hx => h1 x (by rw [hcons]; simp [hx])
      have hl' : s'.length % 2 = 0 := by
        rw [hcons] at hp
        simp at hp
        omega
      rw [show (s0 :: s').headD 0 = s0 from rfl, show (s0 :: s').drop 1 = s' from rfl]
      rw [compactToHex_odd_term s0 s' h0 hs' hl']
      rw [show s0 :: (s' ++ [16]) = (s0 :: s') ++ [16] from rfl, ← hcons, hsplit]
    · rw [hxc, if_neg hp]
      rw [compactToHex_even_term h.dropLast h1 (by omega), hsplit]
  · have hall : ∀ x ∈ h, x < 16 := by
      intro x hx
      rcases List.eq_nil_or_concat h with rfl | ⟨l, a, rfl⟩
      · simp at hx
      · rw [List.concat_eq_append] at hx h1 h2 ht
        rcases List.mem_append.mp hx with hx' | hx'
        · exact h1 x (by simpa using hx')
        · have hxa : x = a := by simpa using hx'
          have hle : a ≤ 16 := h2 a (by simp)
          have hne16 : ¬a = 16 := by
            intro e
            rw [e] at ht hxa
            simp [hasTerm] at ht
          omega
    have hxc : hexToCompact h =
        if h.length % 2 = 1 then (16 ||| h.headD 0) :: decodeNibbles (h.drop 1)
        else 0 :: decodeNibbles h := by
      simp [hexToCompact, ht]
    by_cases hp : h.length % 2 = 1
    · obtain ⟨s0, s', hcons⟩ : ∃ s0 s', h = s0 :: s' := by
        cases hd : h with
        | nil => rw [hd] at hp; simp at hp
        | cons a t => exact ⟨a, t, rfl⟩
      rw [hxc, if_pos hp, hcons]
      have h0 : s0 < 16 := hall s0 (by rw [hcons]; simp)
      have hs' : ∀ x ∈ s', x < 16 := fun x hx => hall x (by rw [hcons]; simp [hx])
      have hl' : s'.length % 2 = 0 := by
        rw [hcons] at hp
        simp at hp
        omega
      rw [show (s0 :: s').headD 0 = s0 from rfl, show (s0 :: s').drop 1 = s' from rfl]
      rw [compactToHex_odd_noterm s0 s' h0 hs' hl', ← hcons]
    · rw [hxc, if_neg hp]
      exact compactToHex_even_noterm h hall (by omega)

/-- Witness for C4 on the concrete keys of the repository's tests. -/
theorem C4_key_encoding_roundtrip_witness :
    compactToHex (hexToCompact [0, 1, 0, 2, 0, 3, 0, 4, 16]) = [0, 1, 0, 2, 0, 3, 0, 4, 16] ∧
      compactToHex (hexToCompact [5, 3, 2]) = [5, 3, 2] := by
  constructor
  · exact C4_key_encoding_roundtrip [0, 1, 0, 2, 0, 3, 0, 4, 16] (by decide) (by decide)
  · exact C4_key_encoding_roundtrip [5, 3, 2] (by decide) (by decide)

/-! ## Claim C5

The in-place conversion is byte-equivalent to `hexToCompact` on every
non-empty buffer; on the empty buffer the Go code panics with an index
out of range at `hex[0] = firstByte` while `hexToCompact` returns `[0x00]`,
so the claim's "on all inputs" fails at exactly that input. -/

theorem overwrite_cons (xs : List Nat) (b : Nat) (t : List Nat) (i : Nat) :
    overwrite (b :: t) (i + 1) xs = b :: overwrite t i xs := by
  induction xs generalizing b t i with
  | nil => rfl
  | cons x xs ih => simp [overwrite, List.set_cons_succ, ih]

theorem overwrite_length (xs l : List Nat) (i : Nat) : (overwrite l i xs).length = l.length := by
  induction xs generalizing l i with
  | nil => rfl
  | cons x xs ih => simp [overwrite, ih]

theorem overwrite_take (xs l : List Nat) (i : Nat) (h : i + xs.length ≤ l.length) :
    (overwrite l i xs).take (i + xs.length) = l.take i ++ xs := by
  induction xs generalizing l i with
  | nil => simp [overwrite]
  | cons x xs ih =>
    have hi : i < l.length := by simp at h; omega
    have hset : (l.set i x).take (i + 1) = l.take i ++ [x] := by
      rw [List.set_eq_take_append_cons_drop, if_pos hi]
      rw [List.take_append_eq_append_take]
      have h1 : (List.take i l).length = i := List.length_take_of_le (by omega)
      rw [h1]
      simp
    have hlen : (i + 1) + xs.length ≤ (l.set i x).length := by simp at h ⊢; omega
    have := ih (l.set i x) (i + 1) hlen
    calc (overwrite l i (x :: xs)).take (i + (x :: xs).length)
        = (overwrite (l.set i x) (i + 1) xs).take ((i + 1) + xs.length) := by
          simp [overwrite]; ring_nf
      _ = (l.set i x).take (i + 1) ++ xs := this
      _ = (l.take i ++ [x]) ++ xs := by rw [hset]
      _ = l.take i ++ x :: xs := by simp

theorem compactLoop_length (fuel : Nat) (buf : List Nat) (bi ni hexLen : Nat) :
    (compactLoop fuel buf bi ni hexLen).length = buf.length := by
  induction fuel generalizing buf bi ni with
  | zero => rfl
  | succ fuel ih =>
    rw [compactLoop]
    split
    · rw [ih]; simp
    · rfl

/-- The in-place write loop denotes sequential writes of the packed pairs read
from the original buffer, as long as the write index trails the read index. -/
theorem compactLoop_spec (fuel : Nat) (buf : List Nat) (bi ni hexLen : Nat)
    (hlen : hexLen ≤ buf.length) (hbi : bi ≤ ni + 1) (hpar : (hexLen - ni) % 2 = 0)
    (hfuel : hexLen - ni ≤ 2 * fuel) :
    compactLoop fuel buf bi ni hexLen =
      overwrite buf bi (decodeNibbles ((buf.drop ni).take (hexLen - ni))) := by
  induction fuel generalizing buf bi ni with
  | zero =>
    have : hexLen - ni = 0 := by omega
    rw [this]
    simp [compactLoop, decodeNibbles, overwrite]
  | succ fuel ih =>
    rw [compactLoop]
    by_cases hni : ni < hexLen
    · rw [if_pos hni]
      have h2 : 2 ≤ hexLen - ni := by omega
      have hni1 : ni < buf.length := by omega
      have hni2 : ni + 1 < buf.length := by omega
      have hslice : (buf.drop ni).take (hexLen - ni) =
          buf.getD ni 0 :: buf.getD (ni + 1) 0 ::
            ((buf.drop (ni + 2)).take (hexLen - (ni + 2))) := by
        rw [List.drop_eq_getElem_cons hni1]
        have : List.drop (ni + 1) buf = buf[ni + 1] :: List.drop (ni + 2) buf :=
          List.drop_eq_getElem_cons hni2
        rw [this]
        rw [List.getD_eq_getElem buf 0 hni1, List.getD_eq_getElem buf 0 hni2]
        have he : hexLen - ni = (hexLen - (ni + 2)) + 1 + 1 := by omega
        rw [he, List.take_succ_cons, List.take_succ_cons]
      rw [hslice]
      rw [show decodeNibbles (buf.getD ni 0 :: buf.getD (ni + 1) 0 ::
          ((buf.drop (ni + 2)).take (hexLen - (ni + 2)))) =
          nibblePair (buf.getD ni 0) (buf.getD (ni + 1) 0) ::
            decodeNibbles ((buf.drop (ni + 2)).take (hexLen - (ni + 2))) from rfl]
      rw [show overwrite buf bi (nibblePair (buf.getD ni 0) (buf.getD (ni + 1) 0) ::
          decodeNibbles ((buf.drop (ni + 2)).take (hexLen - (ni + 2)))) =
          overwrite (buf.set bi (nibblePair (buf.getD ni 0) (buf.getD (ni + 1) 0))) (bi + 1)
            (decodeNibbles ((buf.drop (ni + 2)).take (hexLen - (ni + 2)))) from rfl]
      have hdrop : (buf.set bi (nibblePair (buf.getD ni 0) (buf.getD (ni + 1) 0))).drop (ni + 2) =
          buf.drop (ni + 2) := by
        rw [List.drop_set, if_pos (by omega)]
      rw [← hdrop]
      exact ih _ (bi + 1) (ni + 2) (by simp; omega) (by omega) (by omega) (by omega)
    · rw [if_neg hni]
      have : hexLen - ni = 0 := by omega
      rw [this]
      simp [decodeNibbles, overwrite]

/-- Counterexample to C5 as claimed "on all inputs": on the empty input the
in-place variant panics (out-of-range write of the flag byte, modelled `none`)
while `hexToCompact` returns the one-byte compact form `[0x00]`. -/
theorem C5_counterexample : hexToCompactInPlace [] = none ∧ hexToCompact [] = [0] := ⟨rfl, rfl⟩

/-- Claim C5 as amended: for every NON-EMPTY hex-nibble buffer, the first
`sz` bytes left in the buffer by `hexToCompactInPlace` (which returns `sz`)
are byte-for-byte the output of `hexToCompact`. -/
theorem inplace_core (b0 : Nat) (t : List Nat) (fb ni hexLen : Nat)
    (hlen : hexLen ≤ (b0 :: t).length) (hni : ni = hexLen % 2) :
    ((compactLoop (b0 :: t).length (b0 :: t) 1 ni hexLen).set 0 fb).take (hexLen / 2 + 1) =
      fb :: decodeNibbles (((b0 :: t).drop ni).take (hexLen - ni)) := by
  have hspec := compactLoop_spec (b0 :: t).length (b0 :: t) 1 ni hexLen hlen (by omega)
    (by omega) (by simp only [List.length_cons] at hlen ⊢; omega)
  rw [hspec]
  set xs := decodeNibbles (((b0 :: t).drop ni).take (hexLen - ni)) with hxs
  rw [overwrite_cons]
  rw [show (b0 :: overwrite t 0 xs).set 0 fb = fb :: overwrite t 0 xs from rfl]
  have hxslen : xs.length = hexLen / 2 := by
    rw [hxs, decodeNibbles_length, List.length_take, List.length_drop]
    simp only [List.length_cons] at hlen ⊢
    omega
  have htlen : xs.length ≤ t.length := by
    rw [hxslen]
    simp only [List.length_cons] at hlen
    omega
  rw [List.take_succ_cons]
  congr 1
  rw [← hxslen]
  have := overwrite_take xs t 0 (by omega)
  simpa using this

theorem C5_inplace_equivalence (h : List Nat) (hne : h ≠ []) :
    ∃ sz buf, hexToCompactInPlace h = some (sz, buf) ∧
      sz = (hexToCompact h).length ∧ buf.take sz = hexToCompact h := by
  obtain ⟨b0, t, rfl⟩ := List.exists_cons_of_ne_nil hne
  by_cases hterm : hasTerm (b0 :: t)
  · by_cases hpar : t.length % 2 = 1
    · -- terminator, odd stripped length
      have hip : hexToCompactInPlace (b0 :: t) = some (t.length / 2 + 1,
          (compactLoop (t.length + 1) (b0 :: t) 1 1 t.length).set 0
            (1 <<< 5 ||| 1 <<< 4 ||| b0)) := by
        simp only [hexToCompactInPlace, hterm, if_true, List.length_cons, Nat.add_sub_cancel,
          hpar, List.headD_cons, compactLoop_length]
        norm_num
      have hxc : hexToCompact (b0 :: t) =
          (1 <<< 5 ||| 1 <<< 4 ||| b0) :: decodeNibbles (t.take (t.length - 1)) := by
        have hdl : (b0 :: t).dropLast = b0 :: t.take (t.length - 1) := by
          rw [List.dropLast_eq_take]
          simp only [List.length_cons, Nat.add_sub_cancel]
          cases t with
          | nil => simp at hpar
          | cons a r => simp [List.take_succ_cons]
        have hlen1 : (t.take (t.length - 1)).length = t.length - 1 := by
          rw [List.length_take]
          omega
        simp only [hexToCompact, hterm, if_true, hdl, List.length_cons, List.headD_cons,
          List.drop_succ_cons, List.drop_zero]
        rw [if_pos (by rw [hlen1]; omega)]
      have hcore := inplace_core b0 t (1 <<< 5 ||| 1 <<< 4 ||| b0) 1 t.length (by simp) (by omega)
      simp only [List.length_cons] at hcore
      have hslice : ((b0 :: t).drop 1).take (t.length - 1) = t.take (t.length - 1) := by
        simp
      refine ⟨t.length / 2 + 1, _, hip, ?_, ?_⟩
      · rw [hxc]
        simp only [List.length_cons, decodeNibbles_length, List.length_take]
        omega
      · rw [hcore, hslice, hxc]
    · -- terminator, even stripped length
      have hpar' : t.length % 2 = 0 := by omega
      have hip : hexToCompactInPlace (b0 :: t) = some (t.length / 2 + 1,
          (compactLoop (t.length + 1) (b0 :: t) 1 0 t.length).set 0 (1 <<< 5)) := by
        simp only [hexToCompactInPlace, hterm, if_true, List.length_cons, Nat.add_sub_cancel,
          hpar', compactLoop_length]
        norm_num
      have hdl : (b0 :: t).dropLast = (b0 :: t).take t.length := by
        rw [List.dropLast_eq_take]
        simp
      have hdlen : (b0 :: t).dropLast.length = t.length := by
        simp [List.length_dropLast]
      have hxc : hexToCompact (b0 :: t) =
          (1 <<< 5) :: decodeNibbles ((b0 :: t).dropLast) := by
        simp only [hexToCompact, hterm, if_true]
        rw [if_neg (by rw [hdlen]; omega)]
      have hcore := inplace_core b0 t (1 <<< 5) 0 t.length (by simp) (by omega)
      simp only [List.length_cons] at hcore
      have hslice : ((b0 :: t).drop 0).take (t.length - 0) = (b0 :: t).dropLast := by
        rw [hdl]
        simp
      refine ⟨t.length / 2 + 1, _, hip, ?_, ?_⟩
      · rw [hxc]
        simp only [List.length_cons, decodeNibbles_length, hdlen]
      · rw [hcore, hslice, hxc]
  · by_cases hpar : (t.length + 1) % 2 = 1
    · -- no terminator, odd length
      have hip : hexToCompactInPlace (b0 :: t) = some ((t.length + 1) / 2 + 1,
          (compactLoop (t.length + 1) (b0 :: t) 1 1 (t.length + 1)).set 0
            (1 <<< 4 ||| b0)) := by
        simp only [hexToCompactInPlace, hterm, if_false, Bool.false_eq_true, List.length_cons,
          hpar, if_true, List.headD_cons, compactLoop_length, Nat.zero_or]
        norm_num
      have hxc : hexToCompact (b0 :: t) =
          (1 <<< 4 ||| b0) :: decodeNibbles t := by
        simp only [hexToCompact, hterm, Bool.false_eq_true, if_false, List.length_cons,
          List.headD_cons, List.drop_succ_cons, List.drop_zero]
        rw [if_pos (by omega)]
        simp [Nat.zero_shiftLeft]
      have hcore := inplace_core b0 t (1 <<< 4 ||| b0) 1 (t.length + 1) (by simp) (by omega)
      simp only [List.length_cons] at hcore
      have hslice : ((b0 :: t).drop 1).take (t.length + 1 - 1) = t := by
        simp
      refine ⟨(t.length + 1) / 2 + 1, _, hip, ?_, ?_⟩
      · rw [hxc]
        simp only [List.length_cons, decodeNibbles_length]
        omega
      · rw [hcore, hslice, hxc]
    · -- no terminator, even length
      have hpar' : (t.length + 1) % 2 = 0 := by omega
      have hip : hexToCompactInPlace (b0 :: t) = some ((t.length + 1) / 2 + 1,
          (compactLoop (t.length + 1) (b0 :: t) 1 0 (t.length + 1)).set 0 0) := by
        simp only [hexToCompactInPlace, hterm, if_false, Bool.false_eq_true, List.length_cons,
          hpar', compactLoop_length]
        norm_num
      have hxc : hexToCompact (b0 :: t) = 0 :: decodeNibbles (b0 :: t) := by
        simp only [hexToCompact, hterm, Bool.false_eq_true, if_false, List.length_cons]
        rw [if_neg (by omega)]
        simp [Nat.zero_shiftLeft]
      have hcore := inplace_core b0 t 0 0 (t.length + 1) (by simp) (by omega)
      simp only [List.length_cons] at hcore
      have hslice : ((b0 :: t).drop 0).take (t.length + 1 - 0) = b0 :: t := by
        simp
      refine ⟨(t.length + 1) / 2 + 1, _, hip, ?_, ?_⟩
      · rw [hxc]
        simp only [List.length_cons, decodeNibbles_length]
      · rw [hcore, hslice, hxc]


/-- Witness for the amended C5 on the in-place test vector of the repository. -/
theorem C5_inplace_equivalence_witness :
    ([0, 1, 0, 2, 0, 3, 0, 4, 16] : List Nat) ≠ [] ∧
      (∃ sz buf, hexToCompactInPlace [0, 1, 0, 2, 0, 3, 0, 4, 16] = some (sz, buf) ∧
        sz = (hexToCompact [0, 1, 0, 2, 0, 3, 0, 4, 16]).length ∧
        buf.take sz = hexToCompact [0, 1, 0, 2, 0, 3, 0, 4, 16]) :=
  ⟨by decide, C5_inplace_equivalence [0, 1, 0, 2, 0, 3, 0, 4, 16] (by decide)⟩

/-! ## Claim C1 -/

theorem prefixLen_le_right : ∀ a b : List Nat, prefixLen a b ≤ b.length := by
  intro a
  induction a with
  | nil => intro b; cases b <;> simp [prefixLen]
  | cons x xs ih =>
    intro b
    cases b with
    | nil => simp [prefixLen]
    | cons y ys =>
      by_cases hxy : x = y <;> simp [prefixLen, hxy]
      exact ih ys

theorem prefixLen_le_left : ∀ a b : List Nat, prefixLen a b ≤ a.length := by
  intro a
  induction a with
  | nil => intro b; cases b <;> simp [prefixLen]
  | cons x xs ih =>
    intro b
    cases b with
    | nil => simp [prefixLen]
    | cons y ys =>
      by_cases hxy : x = y <;> simp [prefixLen, hxy]
      exact ih ys

theorem prefixLen_full : ∀ a b : List Nat, prefixLen a b = b.length →
    b.length ≤ a.length ∧ a.take b.length = b := by
  intro a
  induction a with
  | nil =>
    intro b h
    cases b with
    | nil => simp
    | cons y ys => simp [prefixLen] at h
  | cons x xs ih =>
    intro b h
    cases b with
    | nil => simp
    | cons y ys =>
      by_cases hxy : x = y
      · rw [prefixLen, if_pos hxy] at h
        simp at h
        obtain ⟨h1, h2⟩ := ih ys h
        subst hxy
        simp [List.take_succ_cons, h2]
        omega
      · rw [prefixLen, if_neg hxy] at h
        simp at h

theorem getD_set_eq (l : List Node) (i : Nat) (x : Node) (h : i < l.length) :
    (l.set i x).getD i .null = x := by
  rw [List.getD_eq_getElem _ _ (by simp [h])]
  exact List.getElem_set_self _

theorem tryGet_succ_short (db : DB) (g : Nat) (nKey : List Nat) (nVal : Node) (key : List Nat)
    (hg : ¬(key.length < nKey.length ∨ ¬key.take nKey.length = nKey)) :
    tryGet db (g + 1) (.short nKey nVal) key = tryGet db g nVal (key.drop nKey.length) := by
  rw [tryGet, if_neg hg]

theorem tryGet_succ_full (db : DB) (g : Nat) (ch : List Node) (k0 : Nat) (rest : List Nat)
    (h : k0 < ch.length) :
    tryGet db (g + 1) (.full ch) (k0 :: rest) = tryGet db g (ch.getD k0 .null) rest := by
  simp only [tryGet]
  rw [if_neg (by omega)]

theorem tryGet_succ_hash (db : DB) (g : Nat) (h : List Nat) (key : List Nat) (rn : Node)
    (hdb : dbNode db h = some rn) :
    tryGet db (g + 1) (.hash h) key = tryGet db g rn key := by
  rw [tryGet]
  simp only [hdb]

/-- Core of C1: a successful insert leaves the inserted value reachable by
`tryGet` along the same key (with fuel at most twice the insert fuel), and a
clean (`dirty = false`) insert means the value was already reachable in the
original node. -/
theorem insert_tryGet (db : DB) (f : Nat) : ∀ n key vb d m,
    insert db f n key (.value vb) = some (d, m) →
    (∀ g, 2 * f ≤ g → tryGet db g m key = some (some vb)) ∧
    (d = false → ∀ g, 2 * f ≤ g → tryGet db g n key = some (some vb)) := by
  induction f with
  | zero =>
    intro n key vb d m h
    simp [insert] at h
  | succ f ih =>
    intro n key vb d m h
    rw [insert.eq_def] at h
    simp only [] at h
    by_cases hk : key = []
    · rw [if_pos hk] at h
      subst hk
      cases n with
      | value v =>
        simp only [] at h
        injection h with h
        injection h with hd hm
        subst hm
        constructor
        · intro g hg
          match g, hg with
          | g + 1, _ => rfl
        · intro hdf g hg
          have hv : v = vb := by
            rw [← hd] at hdf
            simpa using hdf
          subst hv
          match g, hg with
          | g + 1, _ => rfl
      | null =>
        simp only [] at h
        injection h with h
        injection h with hd hm
        subst hm
        refine ⟨?_, ?_⟩
        · intro g hg
          match g, hg with
          | g + 1, _ => rfl
        · intro hdf
          rw [← hd] at hdf
          simp at hdf
      | short a b =>
        simp only [] at h
        injection h with h
        injection h with hd hm
        subst hm
        refine ⟨?_, ?_⟩
        · intro g hg
          match g, hg with
          | g + 1, _ => rfl
        · intro hdf
          rw [← hd] at hdf
          simp at hdf
      | full ch =>
        simp only [] at h
        injection h with h
        injection h with hd hm
        subst hm
        refine ⟨?_, ?_⟩
        · intro g hg
          match g, hg with
          | g + 1, _ => rfl
        · intro hdf
          rw [← hd] at hdf
          simp at hdf
      | hash hh =>
        simp only [] at h
        injection h with h
        injection h with hd hm
        subst hm
        refine ⟨?_, ?_⟩
        · intro g hg
          match g, hg with
          | g + 1, _ => rfl
        · intro hdf
          rw [← hd] at hdf
          simp at hdf
    · rw [if_neg hk] at h
      cases n with
      | value v => simp at h
      | null =>
        simp only [] at h
        injection h with h
        injection h with hd hm
        subst hm
        refine ⟨?_, ?_⟩
        · intro g hg
          match g, hg with
          | g + 1, hg =>
            rw [tryGet_succ_short db g key (.value vb) key (by simp)]
            rw [List.drop_length]
            match g, hg with
            | g + 1, _ => rfl
        · intro hdf
          rw [← hd] at hdf
          simp at hdf
      | hash hh =>
        simp only [] at h
        cases hdb : dbNode db hh with
        | none => rw [hdb] at h; simp at h
        | some rn =>
          simp only [hdb] at h
          cases hins : insert db f rn key (.value vb) with
          | none => simp only [hins] at h; simp at h
          | some p =>
            obtain ⟨d1, nn⟩ := p
            simp only [hins] at h
            obtain ⟨iha, ihb⟩ := ih rn key vb d1 nn hins
            by_cases hd1 : d1 = true
            · rw [if_pos hd1] at h
              injection h with h
              injection h with hd hm
              subst hm
              refine ⟨fun g hg => iha g (by omega), ?_⟩
              intro hdf
              rw [← hd] at hdf
              simp at hdf
            · rw [if_neg hd1] at h
              injection h with h
              injection h with hd hm
              subst hm
              have hb := ihb (by simpa using hd1)
              refine ⟨fun g hg => hb g (by omega), ?_⟩
              intro _ g hg
              match g, hg with
              | g + 1, hg =>
                rw [tryGet_succ_hash db g hh key rn hdb]
                exact hb g (by omega)
      | full ch =>
        simp only [] at h
        match key, hk with
        | k0 :: rest, _ =>
          simp only [] at h
          by_cases hlen : ch.length ≤ k0
          · rw [if_pos hlen] at h; simp at h
          · rw [if_neg hlen] at h
            cases hins : insert db f (ch.getD k0 .null) rest (.value vb) with
            | none => simp only [hins] at h; simp at h
            | some p =>
              obtain ⟨d1, nn⟩ := p
              simp only [hins] at h
              obtain ⟨iha, ihb⟩ := ih (ch.getD k0 .null) rest vb d1 nn hins
              by_cases hd1 : d1 = true
              · rw [if_pos hd1] at h
                injection h with h
                injection h with hd hm
                subst hm
                refine ⟨?_, ?_⟩
                · intro g hg
                  match g, hg with
                  | g + 1, hg =>
                    rw [tryGet_succ_full db g (ch.set k0 nn) k0 rest (by simp; omega)]
                    rw [getD_set_eq ch k0 nn (by omega)]
                    exact iha g (by omega)
                · intro hdf
                  rw [← hd] at hdf
                  simp at hdf
              · rw [if_neg hd1] at h
                injection h with h
                injection h with hd hm
                subst hm
                have hb := ihb (by simpa using hd1)
                have hstep : ∀ g, 2 * f ≤ g →
                    tryGet db (g + 1) (.full ch) (k0 :: rest) = some (some vb) := by
                  intro g hg
                  rw [tryGet_succ_full db g ch k0 rest (by omega)]
                  exact hb g hg
                refine ⟨?_, ?_⟩
                · intro g hg
                  match g, hg with
                  | g + 1, hg => exact hstep g (by omega)
                · intro _ g hg
                  match g, hg with
                  | g + 1, hg => exact hstep g (by omega)
      | short nKey nVal =>
        simp only [] at h
        by_cases hml : prefixLen key nKey = nKey.length
        · rw [if_pos hml] at h
          cases hins : insert db f nVal (key.drop (prefixLen key nKey)) (.value vb) with
          | none => simp only [hins] at h; simp at h
          | some p =>
            obtain ⟨d1, nn⟩ := p
            simp only [hins] at h
            obtain ⟨iha, ihb⟩ := ih nVal (key.drop (prefixLen key nKey)) vb d1 nn hins
            have hguard : ¬(key.length < nKey.length ∨ ¬key.take nKey.length = nKey) := by
              obtain ⟨h1, h2⟩ := prefixLen_full key nKey hml
              push_neg
              exact ⟨by omega, h2⟩
            by_cases hd1 : d1 = true
            · rw [if_pos hd1] at h
              injection h with h
              injection h with hd hm
              subst hm
              refine ⟨?_, ?_⟩
              · intro g hg
                match g, hg with
                | g + 1, hg =>
                  rw [tryGet_succ_short db g nKey nn key hguard]
                  rw [← hml]
                  exact iha g (by omega)
              · intro hdf
                rw [← hd] at hdf
                simp at hdf
            · rw [if_neg hd1] at h
              injection h with h
              injection h with hd hm
              subst hm
              have hb := ihb (by simpa using hd1)
              have hstep : ∀ g, 2 * f ≤ g →
                  tryGet db (g + 1) (.short nKey nVal) key = some (some vb) := by
                intro g hg
                rw [tryGet_succ_short db g nKey nVal key hguard]
                rw [← hml]
                exact hb g hg
              refine ⟨?_, ?_⟩
              · intro g hg
                match g, hg with
                | g + 1, hg => exact hstep g (by omega)
              · intro _ g hg
                match g, hg with
                | g + 1, hg => exact hstep g (by omega)
        · rw [if_neg hml] at h
          by_cases hkl : key.length ≤ prefixLen key nKey
          · rw [if_pos hkl] at h; simp at h
          · rw [if_neg hkl] at h
            by_cases hidx : 16 < nKey.getD (prefixLen key nKey) 0 ∨
                16 < key.getD (prefixLen key nKey) 0
            · rw [if_pos hidx] at h; simp at h
            · rw [if_neg hidx] at h
              have hidxPair : nKey.getD (prefixLen key nKey) 0 ≤ 16 ∧
                  key.getD (prefixLen key nKey) 0 ≤ 16 := by
                push_neg at hidx
                exact hidx
              cases hins1 : insert db f .null (nKey.drop (prefixLen key nKey + 1)) nVal with
              | none => simp only [hins1] at h; simp at h
              | some p1 =>
                cases hins2 : insert db f .null (key.drop (prefixLen key nKey + 1))
                    (.value vb) with
                | none => simp only [hins1, hins2] at h; simp at h
                | some p2 =>
                  obtain ⟨e1, c1⟩ := p1
                  obtain ⟨e2, c2⟩ := p2
                  simp only [hins1, hins2] at h
                  obtain ⟨iha, _⟩ :=
                    ih .null (key.drop (prefixLen key nKey + 1)) vb e2 c2 hins2
                  set M := prefixLen key nKey with hM
                  have hMk : M < key.length := by omega
                  -- tryGet through the new branch finds the value
                  have hbranch : ∀ g, 2 * f ≤ g →
                      tryGet db (g + 1)
                        (.full ((emptyChildren.set (nKey.getD M 0) c1).set (key.getD M 0) c2))
                        (key.drop M) = some (some vb) := by
                    intro g hg
                    have hkey : key.drop M = key.getD M 0 :: key.drop (M + 1) := by
                      rw [List.getD_eq_getElem _ _ hMk]
                      exact List.drop_eq_getElem_cons hMk
                    rw [hkey]
                    have hchlen : ((emptyChildren.set (nKey.getD M 0) c1).set
                        (key.getD M 0) c2).length = 17 := by
                      simp [emptyChildren]
                    rw [tryGet_succ_full db g _ _ _
                      (by rw [hchlen]; exact Nat.lt_succ_of_le hidxPair.2)]
                    rw [getD_set_eq _ _ _
                      (by simp only [emptyChildren, List.length_set, List.length_replicate]
                          exact Nat.lt_succ_of_le hidxPair.2)]
                    exact iha g hg
                  by_cases hM0 : M = 0
                  · rw [if_pos hM0] at h
                    injection h with h
                    injection h with hd hm
                    subst hm
                    refine ⟨?_, ?_⟩
                    · intro g hg
                      match g, hg with
                      | g + 1, hg =>
                        have := hbranch g (by omega)
                        rw [hM0] at this ⊢
                        simpa using this
                    · intro hdf
                      rw [← hd] at hdf
                      simp at hdf
                  · rw [if_neg hM0] at h
                    injection h with h
                    injection h with hd hm
                    subst hm
                    refine ⟨?_, ?_⟩
                    · intro g hg
                      match g, hg with
                      | g + 1, hg =>
                        have hguard : ¬(key.length < (key.take M).length ∨
                            ¬key.take (key.take M).length = key.take M) := by
                          push_neg
                          constructor
                          · rw [List.length_take]
                            omega
                          · rw [List.length_take]
                            congr 1
                            omega
                        rw [tryGet_succ_short db g (key.take M) _ key hguard]
                        rw [List.length_take]
                        rw [show min M key.length = M by omega]
                        match g, hg with
                        | g + 1, hg => exact hbranch g (by omega)
                    · intro hdf
                      rw [← hd] at hdf
                      simp at hdf

/-- Claim C1: after a successful `TryUpdate(k, v)` with non-empty `v`, `Get(k)`
returns exactly `v` (stated with the explicit fuel bounds of the model: any
read fuel of at least twice the insert fuel suffices). -/
theorem C1_get_after_update (db : DB) (f : Nat) (t : TrieM) (k v : List Nat) (t2 : TrieM)
    (hv : v ≠ []) (h : tryUpdate db f t k v = some t2) :
    ∀ g, 2 * f ≤ g → tryGetKey db g t2 k = some (some v) := by
  rw [tryUpdate, if_pos hv] at h
  cases hins : insert db f t.root (keybytesToHex k) (.value v) with
  | none => rw [hins] at h; simp at h
  | some p =>
    obtain ⟨d, m⟩ := p
    rw [hins] at h
    injection h with h
    subst h
    intro g hg
    exact (insert_tryGet db f t.root (keybytesToHex k) v d m hins).1 g hg

/-- Witness for C1 on a concrete insert into the empty trie. -/
theorem C1_get_after_update_witness :
    tryGetKey [] 10 (TrieM.mk (.short [0, 1, 16] (.value [7]))) [1] = some (some [7]) := by
  have hmain := C1_get_after_update [] 5 (TrieM.mk .null) [1] [7]
    (TrieM.mk (.short [0, 1, 16] (.value [7]))) (by decide) (by rfl)
  exact hmain 10 (by decide)

/-! ## Shared lemmas for the invariant and delete-inverse claims (C6, C2) -/

theorem tryGet_mono (db : DB) : ∀ g n key r, tryGet db g n key = some r →
    tryGet db (g + 1) n key = some r := by
  intro g
  induction g with
  | zero => intro n key r h; simp [tryGet] at h
  | succ g ih =>
    intro n key r h
    cases n with
    | null => exact h
    | value v => exact h
    | short nKey nVal =>
      rw [tryGet] at h ⊢
      split at h
      · rw [if_pos (by assumption)]
        exact h
      · rw [if_neg (by assumption)]
        exact ih _ _ _ h
    | full ch =>
      match key with
      | [] => simp [tryGet] at h
      | k0 :: rest =>
        simp only [tryGet] at h ⊢
        split at h
        · simp at h
        · rw [if_neg (by assumption)]
          exact ih _ _ _ h
    | hash hh =>
      simp only [tryGet] at h ⊢
      cases hdb : dbNode db hh with
      | none => simp only [hdb] at h; simp at h
      | some rn =>
        simp only [hdb] at h ⊢
        exact ih _ _ _ h

theorem tryGet_mono_le (db : DB) (g g' : Nat) (n : Node) (key : List Nat)
    (r : Option (List Nat)) (hle : g ≤ g') (h : tryGet db g n key = some r) :
    tryGet db g' n key = some r := by
  induction g' with
  | zero =>
    have : g = 0 := by omega
    subst this
    exact h
  | succ g' ih =>
    rcases Nat.lt_or_ge g (g' + 1) with hlt | hge
    · exact tryGet_mono db g' n key r (ih (by omega))
    · have : g = g' + 1 := by omega
      subst this
      exact h

theorem prefixLen_refl : ∀ a : List Nat, prefixLen a a = a.length := by
  intro a
  induction a with
  | nil => rfl
  | cons x xs ih => simp [prefixLen, ih]

theorem prefixLen_of_prefix : ∀ a b : List Nat, b <+: a → prefixLen a b = b.length := by
  intro a
  induction a with
  | nil =>
    intro b h
    rw [List.prefix_nil.mp h]
    rfl
  | cons x xs ih =>
    intro b h
    cases b with
    | nil => rfl
    | cons y ys =>
      obtain ⟨hy, hys⟩ := List.cons_prefix_cons.mp h
      subst hy
      simp [prefixLen, ih ys hys]

theorem prefixLen_take_eq : ∀ a b : List Nat,
    a.take (prefixLen a b) = b.take (prefixLen a b) := by
  intro a
  induction a with
  | nil => intro b; cases b <;> simp [prefixLen]
  | cons x xs ih =>
    intro b
    cases b with
    | nil => simp [prefixLen]
    | cons y ys =>
      by_cases hxy : x = y
      · subst hxy
        simp [prefixLen, List.take_succ_cons, ih ys]
      · simp [prefixLen, hxy]

theorem prefixLen_ne : ∀ a b : List Nat, prefixLen a b < a.length → prefixLen a b < b.length →
    a.getD (prefixLen a b) 0 ≠ b.getD (prefixLen a b) 0 := by
  intro a
  induction a with
  | nil => intro b h1 h2; simp at h1
  | cons x xs ih =>
    intro b h1 h2
    cases b with
    | nil => simp at h2
    | cons y ys =>
      by_cases hxy : x = y
      · subst hxy
        rw [prefixLen, if_pos rfl] at h1 h2 ⊢
        simp only [List.length_cons] at h1 h2
        rw [List.getD_cons_succ, List.getD_cons_succ]
        exact ih ys (by omega) (by omega)
      · rw [prefixLen, if_neg hxy]
        simpa using hxy

/-- Overwriting an entry with the value it already holds is the identity. -/
theorem set_getD_id : ∀ (l : List Node) (i : Nat) (x : Node),
    l.getD i .null = x → l.set i x = l := by
  intro l
  induction l with
  | nil => intro i x h; rfl
  | cons c rest ih =>
    intro i x h
    cases i with
    | zero =>
      simp [List.getD] at h
      simp [h]
    | succ i =>
      simp only [List.getD_cons_succ] at h
      simp [List.set_cons_succ, ih i x h]

theorem validKey_split (key : List Nat) (h : validKey key = true) :
    key.dropLast ++ [16] = key ∧ (∀ x ∈ key.dropLast, x < 16) ∧ key ≠ [] := by
  simp only [validKey, Bool.and_eq_true, beq_iff_eq] at h
  obtain ⟨⟨h1, h2⟩, h3⟩ := h
  have hne : key ≠ [] := by
    intro e
    subst e
    simp at h1
  refine ⟨?_, ?_, hne⟩
  · have hlast : key.getLast hne = 16 := by
      have := List.getLast?_eq_getLast key hne
      rw [this] at h2
      exact Option.some_injective _ h2
    have := List.dropLast_append_getLast hne
    rw [hlast] at this
    exact this
  · intro x hx
    have := List.all_eq_true.mp h3 x hx
    simpa using this

theorem validKey_drop (key : List Nat) (m : Nat) (h : validKey key = true)
    (hm : m < key.length) : validKey (key.drop m) = true := by
  obtain ⟨hsplit, hsmall, hne⟩ := validKey_split key h
  have hcorelen : key.dropLast.length = key.length - 1 := List.length_dropLast key
  have hdrop : key.drop m = key.dropLast.drop m ++ [16] := by
    conv_lhs => rw [← hsplit]
    rw [List.drop_append_of_le_length (by omega)]
  rw [hdrop]
  simp only [validKey, Bool.and_eq_true, beq_iff_eq]
  refine ⟨⟨by simp, by simp⟩, ?_⟩
  rw [List.dropLast_concat]
  rw [List.all_eq_true]
  intro x hx
  simpa using hsmall x (List.mem_of_mem_drop hx)

theorem validKey_take_lt (key : List Nat) (m : Nat) (h : validKey key = true)
    (hm : m < key.length) : ∀ x ∈ key.take m, x < 16 := by
  obtain ⟨hsplit, hsmall, hne⟩ := validKey_split key h
  intro x hx
  apply hsmall
  have hcorelen : key.dropLast.length = key.length - 1 := List.length_dropLast key
  have : key.take m = key.dropLast.take m := by
    conv_lhs => rw [← hsplit]
    rw [List.take_append_of_le_length (by omega)]
  rw [this] at hx
  exact List.mem_of_mem_take hx

theorem validKey_getD_16 (key : List Nat) (m : Nat) (h : validKey key = true)
    (hm : m < key.length) : key.getD m 0 = 16 ↔ m = key.length - 1 := by
  obtain ⟨hsplit, hsmall, hne⟩ := validKey_split key h
  have hcorelen : key.dropLast.length = key.length - 1 := List.length_dropLast key
  constructor
  · intro h16
    by_contra hne2
    have hmlt : m < key.dropLast.length := by omega
    have : key.getD m 0 = key.dropLast.getD m 0 := by
      conv_lhs => rw [← hsplit]
      rw [List.getD_eq_getElem _ _ (by simp [hcorelen]; omega),
        List.getD_eq_getElem _ _ hmlt]
      rw [List.getElem_append_left hmlt]
    rw [this] at h16
    have := hsmall (key.dropLast.getD m 0) (by
      rw [List.getD_eq_getElem _ _ hmlt]
      exact List.getElem_mem hmlt)
    omega
  · intro hm2
    subst hm2
    conv_lhs => rw [← hsplit]
    have hidx : (key.dropLast ++ [16]).length - 1 = key.dropLast.length := by simp
    rw [hidx, List.getD_append_right _ _ _ _ (le_refl _)]
    simp

theorem keybytesToHex_valid (k : List Nat) (h : ∀ x ∈ k, x < 256) :
    validKey (keybytesToHex k) = true := by
  simp only [keybytesToHex, validKey, Bool.and_eq_true, beq_iff_eq]
  refine ⟨⟨by simp, by simp⟩, ?_⟩
  rw [List.dropLast_concat]
  rw [List.all_eq_true]
  intro x hx
  simp only [List.mem_flatten, List.mem_map] at hx
  obtain ⟨l, ⟨b, hb, rfl⟩, hxl⟩ := hx
  have h256 := h b hb
  simp at hxl
  rcases hxl with rfl | rfl <;> simp <;> omega

theorem nonNilIdx_eq_from : ∀ (ch : List Node), nonNilIdx ch = nonNilIdxFrom 0 ch := by
  have aux : ∀ (ch : List Node) (k : Nat),
      ((List.enumFrom k ch).filter (fun p => !p.2.isNull)).map (fun p => p.1) =
        nonNilIdxFrom k ch := by
    intro ch
    induction ch with
    | nil => intro k; rfl
    | cons c rest ih =>
      intro k
      rw [List.enumFrom_cons, nonNilIdxFrom]
      by_cases hc : c.isNull
      · rw [if_pos hc]
        rw [List.filter_cons_of_neg (by simpa using hc)]
        exact ih (k + 1)
      · rw [if_neg hc]
        rw [List.filter_cons_of_pos (by simpa using hc)]
        rw [List.map_cons]
        rw [ih (k + 1)]
  intro ch
  exact aux ch 0

theorem nonNilIdxFrom_length_countP : ∀ (ch : List Node) (k : Nat),
    (nonNilIdxFrom k ch).length = ch.countP (fun c => !c.isNull) := by
  intro ch
  induction ch with
  | nil => intro k; rfl
  | cons c rest ih =>
    intro k
    rw [nonNilIdxFrom, List.countP_cons]
    by_cases hc : c.isNull
    · rw [if_pos hc]
      simp [hc, ih (k + 1)]
    · rw [if_neg hc]
      simp [hc, ih (k + 1)]

theorem nonNilIdxFrom_replicate : ∀ (n k : Nat),
    nonNilIdxFrom k (List.replicate n Node.null) = [] := by
  intro n
  induction n with
  | zero => intro k; rfl
  | succ n ih =>
    intro k
    rw [List.replicate_succ, nonNilIdxFrom]
    simp [Node.isNull, ih (k + 1)]

theorem nonNilIdxFrom_replicate_set : ∀ (n a k : Nat) (c : Node), a < n → c.isNull = false →
    nonNilIdxFrom k ((List.replicate n Node.null).set a c) = [k + a] := by
  intro n
  induction n with
  | zero => intro a k c ha; omega
  | succ n ih =>
    intro a k c ha hc
    rw [List.replicate_succ]
    cases a with
    | zero =>
      rw [List.set_cons_zero, nonNilIdxFrom, if_neg (by simp [hc])]
      rw [nonNilIdxFrom_replicate]
      simp
    | succ a =>
      rw [List.set_cons_succ, nonNilIdxFrom]
      simp only [Node.isNull, if_true]
      rw [ih a (k + 1) c (by omega) hc]
      congr 1
      omega

theorem nonNilIdxFrom_mem : ∀ (ch : List Node) (k pos : Nat), pos ∈ nonNilIdxFrom k ch →
    k ≤ pos ∧ pos - k < ch.length ∧ (ch.getD (pos - k) .null).isNull = false := by
  intro ch
  induction ch with
  | nil => intro k pos h; simp [nonNilIdxFrom] at h
  | cons c rest ih =>
    intro k pos h
    rw [nonNilIdxFrom] at h
    by_cases hc : c.isNull
    · rw [if_pos hc] at h
      obtain ⟨h1, h2, h3⟩ := ih (k + 1) pos h
      refine ⟨by omega, by simp; omega, ?_⟩
      have : pos - k = (pos - (k + 1)) + 1 := by omega
      rw [this, List.getD_cons_succ]
      exact h3
    · rw [if_neg hc] at h
      rcases List.mem_cons.mp h with rfl | h'
      · refine ⟨le_refl _, by simp, ?_⟩
        simp [hc]
      · obtain ⟨h1, h2, h3⟩ := ih (k + 1) pos h'
        refine ⟨by omega, by simp; omega, ?_⟩
        have : pos - k = (pos - (k + 1)) + 1 := by omega
        rw [this, List.getD_cons_succ]
        exact h3

theorem countP_set_balance : ∀ (l : List Node) (i : Nat) (x : Node) (p : Node → Bool),
    i < l.length →
    (l.set i x).countP p + (if p (l.getD i .null) then 1 else 0) =
      l.countP p + (if p x then 1 else 0) := by
  intro l
  induction l with
  | nil => intro i x p h; simp at h
  | cons c rest ih =>
    intro i x p h
    cases i with
    | zero =>
      rw [List.set_cons_zero, List.countP_cons, List.countP_cons]
      simp only [List.getD_cons_zero]
      omega
    | succ i =>
      rw [List.set_cons_succ, List.countP_cons, List.countP_cons]
      simp only [List.getD_cons_succ]
      have := ih i x p (by simp at h; omega)
      omega

theorem hashFreeChildren_getD : ∀ (ch : List Node) (i : Nat),
    hashFreeChildren ch = true → hashFree (ch.getD i .null) = true := by
  intro ch
  induction ch with
  | nil => intro i h; cases i <;> rfl
  | cons c rest ih =>
    intro i h
    rw [hashFreeChildren, Bool.and_eq_true] at h
    cases i with
    | zero => exact h.1
    | succ i =>
      rw [List.getD_cons_succ]
      exact ih i h.2

theorem hashFreeChildren_set : ∀ (ch : List Node) (i : Nat) (x : Node),
    hashFreeChildren ch = true → hashFree x = true →
    hashFreeChildren (ch.set i x) = true := by
  intro ch
  induction ch with
  | nil => intro i x h hx; rfl
  | cons c rest ih =>
    intro i x h hx
    rw [hashFreeChildren, Bool.and_eq_true] at h
    cases i with
    | zero =>
      rw [List.set_cons_zero, hashFreeChildren, Bool.and_eq_true]
      exact ⟨hx, h.2⟩
    | succ i =>
      rw [List.set_cons_succ, hashFreeChildren, Bool.and_eq_true]
      exact ⟨h.1, ih i x h.2 hx⟩

theorem WFchildren_getD : ∀ (ch : List Node) (j i : Nat),
    WFchildren ch j = true → WF (ch.getD i .null) = true := by
  intro ch
  induction ch with
  | nil => intro j i h; cases i <;> rfl
  | cons c rest ih =>
    intro j i h
    rw [WFchildren, Bool.and_eq_true, Bool.and_eq_true] at h
    cases i with
    | zero => exact h.1.2
    | succ i =>
      rw [List.getD_cons_succ]
      exact ih (j + 1) i h.2

theorem WFchildren_pos : ∀ (ch : List Node) (j i : Nat), WFchildren ch j = true →
    i < ch.length →
    (if j + i < 16 then (ch.getD i .null).isValue = false
     else ((ch.getD i .null).isNull || (ch.getD i .null).isValue) = true) := by
  intro ch
  induction ch with
  | nil => intro j i h hi; simp at hi
  | cons c rest ih =>
    intro j i h hi
    rw [WFchildren, Bool.and_eq_true, Bool.and_eq_true] at h
    cases i with
    | zero =>
      simp only [List.getD_cons_zero, Nat.add_zero]
      have := h.1.1
      split at this
      · rw [if_pos (by omega)]
        simpa using this
      · rw [if_neg (by omega)]
        exact this
    | succ i =>
      simp only [List.getD_cons_succ]
      have := ih (j + 1) i h.2 (by simp at hi; omega)
      split at this
      · rw [if_pos (by omega)]
        exact this
      · rw [if_neg (by omega)]
        exact this

theorem WFchildren_set : ∀ (ch : List Node) (j i : Nat) (x : Node),
    WFchildren ch j = true → WF x = true →
    (if j + i < 16 then x.isValue = false else (x.isNull || x.isValue) = true) →
    WFchildren (ch.set i x) j = true := by
  intro ch
  induction ch with
  | nil => intro j i x h hx hp; rfl
  | cons c rest ih =>
    intro j i x h hx hp
    rw [WFchildren, Bool.and_eq_true, Bool.and_eq_true] at h
    cases i with
    | zero =>
      rw [List.set_cons_zero, WFchildren, Bool.and_eq_true, Bool.and_eq_true]
      refine ⟨⟨?_, hx⟩, h.2⟩
      simp only [Nat.add_zero] at hp
      split at hp
      · rw [if_pos (by omega)]
        simpa using hp
      · rw [if_neg (by omega)]
        exact hp
    | succ i =>
      rw [List.set_cons_succ, WFchildren, Bool.and_eq_true, Bool.and_eq_true]
      refine ⟨h.1, ih (j + 1) i x h.2 hx ?_⟩
      split at hp
      · rw [if_pos (by omega)]
        exact hp
      · rw [if_neg (by omega)]
        exact hp

/-- Inserting into a nil node produces a fresh short node (or the bare value on
an empty key). -/
theorem insert_null_eq (db : DB) (f : Nat) (key : List Nat) (val : Node) :
    insert db (f + 1) .null key val =
      some (true, if key = [] then val else .short key val) := by
  by_cases hk : key = []
  · subst hk
    cases val <;> rfl
  · rw [insert.eq_def]
    simp only [if_neg hk]

theorem validKey_last (key : List Nat) (h : validKey key = true) :
    key.getLast? = some 16 := by
  simp only [validKey, Bool.and_eq_true, beq_iff_eq] at h
  exact h.1.2

/-- Decomposition of the well-formedness of a short node. -/
theorem WF_short_parts (nKey : List Nat) (nVal : Node) (h : WF (.short nKey nVal) = true) :
    nKey ≠ [] ∧ (∀ x ∈ nKey.dropLast, x < 16) ∧ WF nVal = true ∧
      ((nKey.getLast? = some 16 ∧ nVal.isValue = true) ∨
       (∃ x, nKey.getLast? = some x ∧ x < 16 ∧ (nVal.isFull || nVal.isHash) = true)) := by
  rw [WF] at h
  simp only [Bool.and_eq_true] at h
  obtain ⟨⟨⟨h1, h2⟩, h3⟩, h4⟩ := h
  refine ⟨by simpa using h1, ?_, h4, ?_⟩
  · intro x hx
    simpa using List.all_eq_true.mp h2 x hx
  · split at h3
    · exact Or.inl ⟨by assumption, h3⟩
    · rename_i x hx16 heq
      simp only [Bool.and_eq_true, decide_eq_true_eq] at h3
      exact Or.inr ⟨x, heq, h3.1, h3.2⟩
    · exact absurd h3 (by simp)

/-- A short node whose key ends in the terminator and whose child is a value
node is well-formed. -/
theorem WF_short_leaf (nKey : List Nat) (nVal : Node) (h1 : nKey ≠ [])
    (h2 : ∀ x ∈ nKey.dropLast, x < 16) (hL : nKey.getLast? = some 16)
    (hv : nVal.isValue = true) : WF (.short nKey nVal) = true := by
  have h4 : WF nVal = true := by
    cases nVal <;> simp_all [Node.isValue, WF]
  rw [WF, hL]
  simp only [Bool.and_eq_true]
  refine ⟨⟨⟨by simpa using h1, ?_⟩, hv⟩, h4⟩
  rw [List.all_eq_true]
  intro x hx
  simpa using h2 x hx

/-- A short node whose key ends in a proper nibble and whose child is a full
(or hash) node is well-formed. -/
theorem WF_short_ext (nKey : List Nat) (nVal : Node) (x : Nat) (h1 : nKey ≠ [])
    (h2 : ∀ y ∈ nKey.dropLast, y < 16) (hL : nKey.getLast? = some x) (hx : x < 16)
    (hv : (nVal.isFull || nVal.isHash) = true) (h4 : WF nVal = true) :
    WF (.short nKey nVal) = true := by
  rw [WF, hL]
  simp only [Bool.and_eq_true]
  refine ⟨⟨⟨by simpa using h1, ?_⟩, ?_⟩, h4⟩
  · rw [List.all_eq_true]
    intro y hy
    simpa using h2 y hy
  · split
    · rename_i heq
      injection heq with heq
      omega
    · rename_i y heq
      injection heq with heq
      subst heq
      simp [hx, hv]
    · rename_i heq
      cases heq

theorem WF_full_parts (ch : List Node) (h : WF (.full ch) = true) :
    ch.length = 17 ∧ 2 ≤ (nonNilIdx ch).length ∧ WFchildren ch 0 = true := by
  rw [WF] at h
  simp only [Bool.and_eq_true, decide_eq_true_eq] at h
  exact ⟨h.1.1, h.1.2, h.2⟩

theorem WF_full_intro (ch : List Node) (h1 : ch.length = 17)
    (h2 : 2 ≤ (nonNilIdx ch).length) (h3 : WFchildren ch 0 = true) :
    WF (.full ch) = true := by
  rw [WF]
  simp [h1, h2, h3]

theorem getD_set_ne (l : List Node) (i j : Nat) (x : Node) (h : i ≠ j) :
    (l.set i x).getD j .null = l.getD j .null := by
  rw [List.getD_eq_getElem?_getD, List.getD_eq_getElem?_getD, List.getElem?_set_ne h]

theorem nonNilIdx_length_countP (ch : List Node) :
    (nonNilIdx ch).length = ch.countP (fun c => !c.isNull) := by
  rw [nonNilIdx_eq_from, nonNilIdxFrom_length_countP]

/-- In a list whose non-final entries are all proper nibbles, an entry equal to
the terminator 16 can only sit at the last position. -/
theorem getD_16_last (l : List Nat) (m : Nat) (hsmall : ∀ x ∈ l.dropLast, x < 16)
    (hm : m < l.length) (h16 : l.getD m 0 = 16) : m = l.length - 1 := by
  by_contra hne
  have hmlt : m < l.dropLast.length := by
    rw [List.length_dropLast]
    omega
  have heq : l.getD m 0 = l.dropLast.getD m 0 := by
    rw [List.getD_eq_getElem _ _ hm, List.getD_eq_getElem _ _ hmlt,
      List.getElem_dropLast]
  rw [heq] at h16
  have := hsmall (l.dropLast.getD m 0) (by
    rw [List.getD_eq_getElem _ _ hmlt]
    exact List.getElem_mem hmlt)
  omega

theorem getLast?_eq_getD (l : List Nat) (h : l ≠ []) :
    l.getLast? = some (l.getD (l.length - 1) 0) := by
  have hlt : l.length - 1 < l.length := by
    cases l
    · simp at h
    · simp
  rw [List.getLast?_eq_getElem?, List.getElem?_eq_getElem hlt,
    List.getD_eq_getElem _ _ hlt]

theorem getLast?_take_eq (l : List Nat) (m : Nat) (h0 : 0 < m) (hm : m ≤ l.length) :
    (l.take m).getLast? = some (l.getD (m - 1) 0) := by
  have hne : l.take m ≠ [] := by
    rw [Ne, List.take_eq_nil_iff]
    push_neg
    refine ⟨by omega, ?_⟩
    intro e
    subst e
    simp at hm
    omega
  rw [getLast?_eq_getD _ hne]
  have hlen : (l.take m).length = m := by
    rw [List.length_take]
    omega
  rw [hlen]
  congr 1
  rw [List.getD_eq_getElem?_getD, List.getD_eq_getElem?_getD, List.getElem?_take,
    if_pos (by omega)]

theorem getLast?_drop_eq (l : List Nat) (m : Nat) (hm : m < l.length) :
    (l.drop m).getLast? = l.getLast? := by
  rw [List.getLast?_drop, if_neg (by omega)]

theorem dropLast_drop_comm (l : List Nat) (m : Nat) :
    (l.drop m).dropLast = l.dropLast.drop m := by
  rw [List.dropLast_eq_take, List.dropLast_eq_take, List.drop_take]
  congr 1
  rw [List.length_drop]
  omega

theorem emptyChildren_getD (i : Nat) : emptyChildren.getD i .null = .null := by
  rw [emptyChildren, List.getD_eq_getElem?_getD, List.getElem?_replicate]
  split <;> rfl

theorem emptyChildren_countP : emptyChildren.countP (fun c => !c.isNull) = 0 := by
  decide

theorem emptyChildren_WFchildren : WFchildren emptyChildren 0 = true := by
  decide

theorem emptyChildren_hashFree : hashFreeChildren emptyChildren = true := by
  decide

theorem isValue_not_isNull (n : Node) (h : n.isValue = true) : n.isNull = false := by
  cases n <;> simp_all [Node.isValue, Node.isNull]

theorem isFull_not_isNull (n : Node) (h : n.isFull = true) : n.isNull = false := by
  cases n <;> simp_all [Node.isFull, Node.isNull]

theorem isFull_not_isValue (n : Node) (h : n.isFull = true) : n.isValue = false := by
  cases n <;> simp_all [Node.isFull, Node.isValue]

/-- A hash-free node that is a full or hash node is a full node. -/
theorem hashFree_shape_full (n : Node) (h : (n.isFull || n.isHash) = true)
    (hhf : hashFree n = true) : n.isFull = true := by
  cases n <;> simp_all [Node.isFull, Node.isHash, hashFree]

/-- Setting two non-nil children at distinct slots of the empty child array
leaves at least two non-nil entries. -/
theorem countP_double_set (a b : Nat) (c1 c2 : Node) (ha : a < 17) (hb : b < 17)
    (hab : a ≠ b) (h1 : c1.isNull = false) (h2 : c2.isNull = false) :
    2 ≤ (nonNilIdx ((emptyChildren.set a c1).set b c2)).length := by
  rw [nonNilIdx_length_countP]
  have hbal1 := countP_set_balance emptyChildren a c1 (fun c => !c.isNull)
    (by simp [emptyChildren]; omega)
  have hbal2 := countP_set_balance (emptyChildren.set a c1) b c2 (fun c => !c.isNull)
    (by simp [emptyChildren]; omega)
  rw [getD_set_ne _ _ _ _ hab, emptyChildren_getD] at hbal2
  rw [emptyChildren_getD] at hbal1
  have hc1t : (!c1.isNull) = true := by rw [h1]; rfl
  have hc2t : (!c2.isNull) = true := by rw [h2]; rfl
  have hnt : (!Node.null.isNull) = false := rfl
  simp [hc1t, hc2t, hnt, emptyChildren_countP] at hbal1 hbal2
  omega

theorem isNull_node (n : Node) (h : n.isNull = true) : n = .null := by
  cases n <;> simp_all [Node.isNull]

theorem asShort_some (n : Node) (ck : List Nat) (cv : Node)
    (h : n.asShort = some (ck, cv)) : n = .short ck cv := by
  cases n <;> simp [Node.asShort] at h
  rw [h.1, h.2]

/-- A hash-free node that is neither nil, a value, nor a short node is full. -/
theorem shape_full_of (n : Node) (hnv : n.isValue = false) (hnn : n.isNull = false)
    (hns : n.asShort = none) (hhf : hashFree n = true) : n.isFull = true := by
  cases n <;> simp_all [Node.isValue, Node.isNull, Node.asShort, Node.isFull, hashFree]

/-- `resolve` is the identity on hash-free (in-memory) nodes. -/
theorem resolve_of_hashFree (db : DB) (n : Node) (h : hashFree n = true) :
    resolve db n = some n := by
  cases n <;> simp_all [resolve, hashFree]

theorem delete_value_eq (db : DB) (f : Nat) (v : List Nat) (key : List Nat) :
    delete db (f + 1) (.value v) key = some (true, .null) := rfl

theorem delete_nil_eq (db : DB) (f : Nat) (key : List Nat) :
    delete db (f + 1) .null key = some (false, .null) := rfl

/-- Shape preservation of `insert`: a successful insert of a value under a
valid key into a hash-free well-formed node yields a hash-free well-formed
node that is neither nil nor a bare value; under the empty key the result is
the bare value node; a full node stays full. -/
theorem insert_WF (db : DB) (f : Nat) : ∀ n key vb d m,
    hashFree n = true → WF n = true →
    insert db f n key (.value vb) = some (d, m) →
    (key = [] → m = .value vb) ∧
    (validKey key = true →
      WF m = true ∧ hashFree m = true ∧ m.isValue = false ∧ m.isNull = false) ∧
    (key ≠ [] → n.isFull = true → m.isFull = true) := by
  induction f with
  | zero =>
    intro n key vb d m hhf hwf h
    simp [insert] at h
  | succ f ih =>
    intro n key vb d m hhf hwf h
    rw [insert.eq_def] at h
    simp only [] at h
    by_cases hk : key = []
    · rw [if_pos hk] at h
      subst hk
      have hm : m = .value vb := by
        cases n <;> simp only [] at h <;>
          (injection h with h; injection h with hd hm; exact hm.symm)
      subst hm
      refine ⟨fun _ => rfl, ?_, ?_⟩
      · intro hvk
        simp [validKey] at hvk
      · intro hne
        exact absurd rfl hne
    · rw [if_neg hk] at h
      cases n with
      | value v => simp at h
      | hash hh => simp [hashFree] at hhf
      | null =>
        simp only [] at h
        injection h with h
        injection h with hd hm
        subst hm
        refine ⟨fun he => absurd he hk, ?_, fun _ hf => by simp [Node.isFull] at hf⟩
        intro hvk
        obtain ⟨hsplit, hsmall, hne⟩ := validKey_split key hvk
        exact ⟨WF_short_leaf key (.value vb) hne hsmall (validKey_last key hvk) rfl,
          rfl, rfl, rfl⟩
      | full ch =>
        simp only [] at h
        match key, hk with
        | k0 :: rest, _ =>
          simp only [] at h
          by_cases hlen : ch.length ≤ k0
          · rw [if_pos hlen] at h
            simp at h
          · rw [if_neg hlen] at h
            cases hins : insert db f (ch.getD k0 .null) rest (.value vb) with
            | none => simp only [hins] at h; simp at h
            | some p =>
              obtain ⟨d1, nn⟩ := p
              simp only [hins] at h
              obtain ⟨hfull, hcnt, hwfc⟩ := WF_full_parts ch hwf
              have hhfc : hashFreeChildren ch = true := by simpa [hashFree] using hhf
              obtain ⟨ih1, ih2, ih3⟩ := ih (ch.getD k0 .null) rest vb d1 nn
                (hashFreeChildren_getD ch k0 hhfc) (WFchildren_getD ch 0 k0 hwfc) hins
              by_cases hd1 : d1 = true
              · rw [if_pos hd1] at h
                injection h with h
                injection h with hd hm
                subst hm
                refine ⟨fun he => (List.cons_ne_nil _ _ he).elim, ?_, fun _ _ => rfl⟩
                intro hvk
                have hnnfacts : WF nn = true ∧ hashFree nn = true ∧ nn.isNull = false ∧
                    (if 0 + k0 < 16 then nn.isValue = false
                     else (nn.isNull || nn.isValue) = true) := by
                  by_cases hrest : rest = []
                  · subst hrest
                    have hnn := ih1 rfl
                    subst hnn
                    have hk016 : k0 = 16 := by
                      have := validKey_last [k0] hvk
                      simpa using this
                    refine ⟨rfl, rfl, rfl, ?_⟩
                    rw [if_neg (by omega)]
                    rfl
                  · have hvrest : validKey rest = true := by
                      have h2 := validKey_drop (k0 :: rest) 1 hvk (by
                        simp only [List.length_cons]
                        cases rest with
                        | nil => exact absurd rfl hrest
                        | cons a b => simp)
                      simpa using h2
                    obtain ⟨hwfm, hhfm, hvalm, hnullm⟩ := ih2 hvrest
                    have hk0lt : k0 < 16 := by
                      obtain ⟨hsplit, hsmall, _⟩ := validKey_split (k0 :: rest) hvk
                      apply hsmall
                      rw [List.dropLast_cons_of_ne_nil hrest]
                      exact List.mem_cons_self k0 _
                    refine ⟨hwfm, hhfm, hnullm, ?_⟩
                    rw [if_pos (by omega)]
                    exact hvalm
                obtain ⟨hwfnn, hhfnn, hnnull, hpos⟩ := hnnfacts
                refine ⟨?_, ?_, rfl, rfl⟩
                · apply WF_full_intro
                  · rw [List.length_set]
                    exact hfull
                  · rw [nonNilIdx_length_countP]
                    rw [nonNilIdx_length_countP] at hcnt
                    have hbal := countP_set_balance ch k0 nn (fun c => !c.isNull)
                      (by omega)
                    have hnnt : (!nn.isNull) = true := by rw [hnnull]; rfl
                    have hle : (if (!(ch.getD k0 Node.null).isNull) = true
                        then 1 else 0) ≤ 1 := by
                      split <;> omega
                    simp only [hnnt, if_true] at hbal
                    omega
                  · exact WFchildren_set ch 0 k0 nn hwfc hwfnn hpos
                · simp only [hashFree]
                  exact hashFreeChildren_set ch k0 nn hhfc hhfnn
              · rw [if_neg hd1] at h
                injection h with h
                injection h with hd hm
                subst hm
                exact ⟨fun he => (List.cons_ne_nil _ _ he).elim,
                  fun _ => ⟨hwf, hhf, rfl, rfl⟩, fun _ hf => hf⟩
      | short nKey nVal =>
        simp only [] at h
        obtain ⟨hne, hsmall, hwfv, hshape⟩ := WF_short_parts nKey nVal hwf
        have hhfv : hashFree nVal = true := by simpa [hashFree] using hhf
        by_cases hml : prefixLen key nKey = nKey.length
        · rw [if_pos hml] at h
          cases hins : insert db f nVal (key.drop (prefixLen key nKey)) (.value vb) with
          | none => simp only [hins] at h; simp at h
          | some p =>
            obtain ⟨d1, nn⟩ := p
            simp only [hins] at h
            obtain ⟨ih1, ih2, ih3⟩ :=
              ih nVal (key.drop (prefixLen key nKey)) vb d1 nn hhfv hwfv hins
            by_cases hd1 : d1 = true
            · rw [if_pos hd1] at h
              injection h with h
              injection h with hd hm
              subst hm
              refine ⟨fun he => absurd he hk, ?_,
                fun _ hf => by simp [Node.isFull] at hf⟩
              intro hvk
              have hkne : key ≠ [] := hk
              have hMpos : 0 < nKey.length := List.length_pos.mpr hne
              have hMle : prefixLen key nKey ≤ key.length := prefixLen_le_left key nKey
              have htake : key.take (prefixLen key nKey) = nKey := by
                have h2 := prefixLen_take_eq key nKey
                rw [hml, List.take_length] at h2
                rw [hml]
                exact h2
              rcases hshape with ⟨hL16, hvval⟩ | ⟨x, hLx, hxlt, hvfh⟩
              · have hlast := getLast?_take_eq key (prefixLen key nKey) (by omega) hMle
                rw [htake, hL16] at hlast
                injection hlast with hlast
                have hMeq : prefixLen key nKey = key.length := by
                  have hlt : prefixLen key nKey - 1 < key.length := by omega
                  have := (validKey_getD_16 key (prefixLen key nKey - 1) hvk hlt).mp
                    hlast.symm
                  have hkpos : 0 < key.length := List.length_pos.mpr hkne
                  omega
                have hdropnil : key.drop (prefixLen key nKey) = [] :=
                  List.drop_eq_nil_iff.mpr (by omega)
                have hnn := ih1 hdropnil
                subst hnn
                exact ⟨WF_short_leaf nKey (.value vb) hne hsmall hL16 rfl, rfl, rfl, rfl⟩
              · have hvfull : nVal.isFull = true := hashFree_shape_full nVal hvfh hhfv
                have hdropne : key.drop (prefixLen key nKey) ≠ [] := by
                  intro hnil
                  rw [List.drop_eq_nil_iff] at hnil
                  have hMeq : prefixLen key nKey = key.length := by omega
                  have hkeq : nKey = key := by
                    rw [← htake, hMeq, List.take_length]
                  rw [hkeq, validKey_last key hvk] at hLx
                  injection hLx with hLx
                  omega
                have hMlt : prefixLen key nKey < key.length := by
                  rw [Ne, List.drop_eq_nil_iff] at hdropne
                  omega
                have hvd : validKey (key.drop (prefixLen key nKey)) = true :=
                  validKey_drop key (prefixLen key nKey) hvk hMlt
                obtain ⟨hwfm, hhfm, hvalm, hnullm⟩ := ih2 hvd
                have hfullnn : nn.isFull = true := ih3 hdropne hvfull
                refine ⟨WF_short_ext nKey nn x hne hsmall hLx hxlt (by
                  rw [hfullnn]; rfl) hwfm, ?_, rfl, rfl⟩
                simp only [hashFree]
                exact hhfm
            · rw [if_neg hd1] at h
              injection h with h
              injection h with hd hm
              subst hm
              exact ⟨fun he => absurd he hk, fun _ => ⟨hwf, hhf, rfl, rfl⟩,
                fun _ hf => hf⟩
        · rw [if_neg hml] at h
          by_cases hkl : key.length ≤ prefixLen key nKey
          · rw [if_pos hkl] at h
            simp at h
          · rw [if_neg hkl] at h
            by_cases hidx : 16 < nKey.getD (prefixLen key nKey) 0 ∨
                16 < key.getD (prefixLen key nKey) 0
            · rw [if_pos hidx] at h
              simp at h
            · rw [if_neg hidx] at h
              have hidxPair : nKey.getD (prefixLen key nKey) 0 ≤ 16 ∧
                  key.getD (prefixLen key nKey) 0 ≤ 16 := by
                push_neg at hidx
                exact hidx
              cases hins1 : insert db f .null (nKey.drop (prefixLen key nKey + 1))
                  nVal with
              | none => simp only [hins1] at h; simp at h
              | some p1 =>
                cases hins2 : insert db f .null (key.drop (prefixLen key nKey + 1))
                    (.value vb) with
                | none => simp only [hins1, hins2] at h; simp at h
                | some p2 =>
                  obtain ⟨e1, c1⟩ := p1
                  obtain ⟨e2, c2⟩ := p2
                  simp only [hins1, hins2] at h
                  cases f with
                  | zero => exact absurd hins1 (by simp [insert])
                  | succ f2 =>
                  rw [insert_null_eq] at hins1 hins2
                  injection hins1 with hp1
                  injection hp1 with he1 hc1
                  injection hins2 with hp2
                  injection hp2 with he2 hc2
                  subst hc1
                  subst hc2
                  set M := prefixLen key nKey with hM
                  have hMkey : M < key.length := by omega
                  have hMnKey : M < nKey.length := by
                    have := prefixLen_le_right key nKey
                    omega
                  refine ⟨fun he => absurd he hk, ?_,
                    fun _ hf => by simp [Node.isFull] at hf⟩
                  intro hvk
                  have hab : key.getD M 0 ≠ nKey.getD M 0 :=
                    prefixLen_ne key nKey hMkey hMnKey
                  -- facts about the key-side child c2
                  have hc2facts : WF (if key.drop (M + 1) = []
                        then Node.value vb
                        else Node.short (key.drop (M + 1)) (.value vb)) = true ∧
                      hashFree (if key.drop (M + 1) = []
                        then Node.value vb
                        else Node.short (key.drop (M + 1)) (.value vb)) = true ∧
                      (if key.drop (M + 1) = []
                        then Node.value vb
                        else Node.short (key.drop (M + 1)) (.value vb)).isNull = false ∧
                      (if 0 + key.getD M 0 < 16
                       then (if key.drop (M + 1) = []
                          then Node.value vb
                          else Node.short (key.drop (M + 1)) (.value vb)).isValue = false
                       else ((if key.drop (M + 1) = []
                          then Node.value vb
                          else Node.short (key.drop (M + 1)) (.value vb)).isNull ||
                        (if key.drop (M + 1) = []
                          then Node.value vb
                          else Node.short (key.drop (M + 1)) (.value vb)).isValue) =
                          true) := by
                    have hb16 := validKey_getD_16 key M hvk hMkey
                    by_cases hc2nil : key.drop (M + 1) = []
                    · rw [if_pos hc2nil]
                      have hMlast : M = key.length - 1 := by
                        rw [List.drop_eq_nil_iff] at hc2nil
                        omega
                      have hbeq : key.getD M 0 = 16 := hb16.mpr hMlast
                      refine ⟨rfl, rfl, rfl, ?_⟩
                      rw [if_neg (by omega)]
                      rfl
                    · rw [if_neg hc2nil]
                      have hM1lt : M + 1 < key.length := by
                        rw [List.drop_eq_nil_iff] at hc2nil
                        omega
                      have hvd2 : validKey (key.drop (M + 1)) = true :=
                        validKey_drop key (M + 1) hvk hM1lt
                      obtain ⟨hsplit2, hsmall2, hne2⟩ := validKey_split _ hvd2
                      have hblt : key.getD M 0 < 16 := by
                        rcases Nat.lt_or_ge (key.getD M 0) 16 with hl | hg
                        · exact hl
                        · have hbeq : key.getD M 0 = 16 := by omega
                          have := hb16.mp hbeq
                          omega
                      refine ⟨WF_short_leaf _ _ hc2nil hsmall2 (validKey_last _ hvd2) rfl,
                        rfl, rfl, ?_⟩
                      rw [if_pos (by omega)]
                      rfl
                  obtain ⟨hwfc2, hhfc2, hc2nn, hc2pos⟩ := hc2facts
                  -- facts about the nKey-side child c1
                  have hc1facts : WF (if nKey.drop (M + 1) = []
                        then nVal
                        else Node.short (nKey.drop (M + 1)) nVal) = true ∧
                      hashFree (if nKey.drop (M + 1) = []
                        then nVal
                        else Node.short (nKey.drop (M + 1)) nVal) = true ∧
                      (if nKey.drop (M + 1) = []
                        then nVal
                        else Node.short (nKey.drop (M + 1)) nVal).isNull = false ∧
                      (if 0 + nKey.getD M 0 < 16
                       then (if nKey.drop (M + 1) = []
                          then nVal
                          else Node.short (nKey.drop (M + 1)) nVal).isValue = false
                       else ((if nKey.drop (M + 1) = []
                          then nVal
                          else Node.short (nKey.drop (M + 1)) nVal).isNull ||
                        (if nKey.drop (M + 1) = []
                          then nVal
                          else Node.short (nKey.drop (M + 1)) nVal).isValue) = true) := by
                    by_cases hc1nil : nKey.drop (M + 1) = []
                    · rw [if_pos hc1nil]
                      have hMeq : M = nKey.length - 1 := by
                        rw [List.drop_eq_nil_iff] at hc1nil
                        omega
                      have hLa := getLast?_eq_getD nKey hne
                      rw [← hMeq] at hLa
                      rcases hshape with ⟨hL16, hvval⟩ | ⟨x, hLx, hxlt, hvfh⟩
                      · rw [hL16] at hLa
                        injection hLa with hLa
                        refine ⟨hwfv, hhfv, isValue_not_isNull nVal hvval, ?_⟩
                        rw [if_neg (by omega)]
                        rw [hvval]
                        simp
                      · have hvfull : nVal.isFull = true :=
                          hashFree_shape_full nVal hvfh hhfv
                        rw [hLx] at hLa
                        injection hLa with hLa
                        refine ⟨hwfv, hhfv, isFull_not_isNull nVal hvfull, ?_⟩
                        rw [if_pos (by omega)]
                        exact isFull_not_isValue nVal hvfull
                    · rw [if_neg hc1nil]
                      have hM1lt : M + 1 < nKey.length := by
                        rw [List.drop_eq_nil_iff] at hc1nil
                        omega
                      have halt : nKey.getD M 0 < 16 := by
                        rcases Nat.lt_or_ge (nKey.getD M 0) 16 with hl | hg
                        · exact hl
                        · have haeq : nKey.getD M 0 = 16 := by omega
                          have := getD_16_last nKey M hsmall hMnKey haeq
                          omega
                      have hsmall1 : ∀ y ∈ (nKey.drop (M + 1)).dropLast, y < 16 := by
                        intro y hy
                        rw [dropLast_drop_comm] at hy
                        exact hsmall y (List.mem_of_mem_drop hy)
                      have hLdrop : (nKey.drop (M + 1)).getLast? = nKey.getLast? :=
                        getLast?_drop_eq nKey (M + 1) hM1lt
                      rcases hshape with ⟨hL16, hvval⟩ | ⟨x, hLx, hxlt, hvfh⟩
                      · refine ⟨WF_short_leaf _ _ hc1nil hsmall1 (by
                          rw [hLdrop]; exact hL16) hvval, ?_, rfl, ?_⟩
                        · simp only [hashFree]
                          exact hhfv
                        · rw [if_pos (by omega)]
                          rfl
                      · refine ⟨WF_short_ext _ _ x hc1nil hsmall1 (by
                          rw [hLdrop]; exact hLx) hxlt hvfh hwfv, ?_, rfl, ?_⟩
                        · simp only [hashFree]
                          exact hhfv
                        · rw [if_pos (by omega)]
                          rfl
                  obtain ⟨hwfc1, hhfc1, hc1nn, hc1pos⟩ := hc1facts
                  -- the freshly built branch node
                  have hchlen : ((emptyChildren.set (nKey.getD M 0)
                      (if nKey.drop (M + 1) = [] then nVal
                        else Node.short (nKey.drop (M + 1)) nVal)).set (key.getD M 0)
                      (if key.drop (M + 1) = [] then Node.value vb
                        else Node.short (key.drop (M + 1)) (.value vb))).length = 17 := by
                    simp [emptyChildren]
                  have hwfch := WFchildren_set _ 0 (key.getD M 0) _
                    (WFchildren_set emptyChildren 0 (nKey.getD M 0) _
                      emptyChildren_WFchildren hwfc1 hc1pos) hwfc2 hc2pos
                  have hhfch := hashFreeChildren_set _ (key.getD M 0) _
                    (hashFreeChildren_set emptyChildren (nKey.getD M 0) _
                      emptyChildren_hashFree hhfc1) hhfc2
                  have hcount := countP_double_set (nKey.getD M 0) (key.getD M 0) _ _
                    (by omega) (by omega) (fun e => hab e.symm) hc1nn hc2nn
                  have hwfbranch := WF_full_intro _ hchlen hcount hwfch
                  have hhfbranch : hashFree (Node.full ((emptyChildren.set (nKey.getD M 0)
                      (if nKey.drop (M + 1) = [] then nVal
                        else Node.short (nKey.drop (M + 1)) nVal)).set (key.getD M 0)
                      (if key.drop (M + 1) = [] then Node.value vb
                        else Node.short (key.drop (M + 1)) (.value vb)))) = true := by
                    simp only [hashFree]
                    exact hhfch
                  by_cases hM0 : M = 0
                  · rw [if_pos hM0] at h
                    injection h with h
                    injection h with hd hm
                    subst hm
                    exact ⟨hwfbranch, hhfbranch, rfl, rfl⟩
                  · rw [if_neg hM0] at h
                    injection h with h
                    injection h with hd hm
                    subst hm
                    have htne : key.take M ≠ [] := by
                      rw [Ne, List.take_eq_nil_iff]
                      push_neg
                      refine ⟨hM0, ?_⟩
                      intro e
                      rw [e] at hMkey
                      simp at hMkey
                    have htsmall : ∀ y ∈ (key.take M).dropLast, y < 16 := by
                      intro y hy
                      exact validKey_take_lt key M hvk hMkey y (List.dropLast_subset _ hy)
                    have htL : (key.take M).getLast? = some (key.getD (M - 1) 0) :=
                      getLast?_take_eq key M (by omega) (by omega)
                    have htlt : key.getD (M - 1) 0 < 16 := by
                      have hlt : M - 1 < (key.take M).length := by
                        rw [List.length_take]
                        omega
                      have hmem : (key.take M).getD (M - 1) 0 ∈ key.take M := by
                        rw [List.getD_eq_getElem _ _ hlt]
                        exact List.getElem_mem hlt
                      have heq : (key.take M).getD (M - 1) 0 = key.getD (M - 1) 0 := by
                        rw [List.getD_eq_getElem?_getD, List.getD_eq_getElem?_getD,
                          List.getElem?_take, if_pos (by omega)]
                      rw [heq] at hmem
                      exact validKey_take_lt key M hvk hMkey _ hmem
                    refine ⟨WF_short_ext (key.take M) _ (key.getD (M - 1) 0) htne
                      htsmall htL htlt rfl hwfbranch, ?_, rfl, rfl⟩
                    simp only [hashFree]
                    exact hhfbranch

/-- Shape preservation of `delete`: a successful delete under a valid key from
a hash-free well-formed node yields a hash-free well-formed node that is not a
bare value; a full node never collapses all the way to nil; and a clean
(`dirty = false`) delete returns the node unchanged. -/
theorem delete_WF (db : DB) (f : Nat) : ∀ n key d m,
    hashFree n = true → WF n = true → validKey key = true →
    delete db f n key = some (d, m) →
    WF m = true ∧ hashFree m = true ∧ m.isValue = false ∧
      (n.isFull = true → m.isNull = false) ∧ (d = false → m = n) := by
  induction f with
  | zero =>
    intro n key d m _ _ _ h
    simp [delete] at h
  | succ f ih =>
    intro n key d m hhf hwf hvk h
    rw [delete.eq_def] at h
    simp only [] at h
    cases n with
    | null =>
      injection h with h
      injection h with hd hm
      subst hm
      exact ⟨rfl, rfl, rfl, fun hf => by simp [Node.isFull] at hf, fun _ => rfl⟩
    | value v =>
      injection h with h
      injection h with hd hm
      subst hm
      refine ⟨rfl, rfl, rfl, fun hf => by simp [Node.isFull] at hf, fun hdf => ?_⟩
      rw [← hd] at hdf
      simp at hdf
    | hash hh => simp [hashFree] at hhf
    | short nKey nVal =>
      obtain ⟨hne, hsmall, hwfv, hshape⟩ := WF_short_parts nKey nVal hwf
      have hhfv : hashFree nVal = true := by simpa [hashFree] using hhf
      simp only [] at h
      by_cases hml : prefixLen key nKey < nKey.length
      · rw [if_pos hml] at h
        injection h with h
        injection h with hd hm
        subst hm
        exact ⟨hwf, hhf, rfl, fun hf => by simp [Node.isFull] at hf, fun _ => rfl⟩
      · rw [if_neg hml] at h
        by_cases hmk : prefixLen key nKey = key.length
        · rw [if_pos hmk] at h
          injection h with h
          injection h with hd hm
          subst hm
          refine ⟨rfl, rfl, rfl, fun hf => by simp [Node.isFull] at hf, fun hdf => ?_⟩
          rw [← hd] at hdf
          simp at hdf
        · rw [if_neg hmk] at h
          cases hdel : delete db f nVal (key.drop nKey.length) with
          | none => simp only [hdel] at h; simp at h
          | some p =>
            obtain ⟨d1, child⟩ := p
            simp only [hdel] at h
            have hMeq : prefixLen key nKey = nKey.length := by
              have := prefixLen_le_right key nKey
              omega
            have hMlt : nKey.length < key.length := by
              have := prefixLen_le_left key nKey
              omega
            have hkpos : 0 < nKey.length := List.length_pos.mpr hne
            -- the short node cannot be a leaf here: its terminator would sit in
            -- the interior of the (valid) search key
            have hext : ∃ x, nKey.getLast? = some x ∧ x < 16 ∧ nVal.isFull = true := by
              rcases hshape with ⟨hL16, hvv⟩ | ⟨x, hLx, hxlt, hfh⟩
              · exfalso
                obtain ⟨hle2, htake⟩ := prefixLen_full key nKey hMeq
                have hlast := getLast?_take_eq key nKey.length (by omega) (by omega)
                rw [htake, hL16] at hlast
                injection hlast with hlast
                have := (validKey_getD_16 key (nKey.length - 1) hvk (by omega)).mp
                  hlast.symm
                omega
              · exact ⟨x, hLx, hxlt, hashFree_shape_full nVal hfh hhfv⟩
            obtain ⟨x, hLx, hxlt, hvfull⟩ := hext
            have hallk : ∀ y ∈ nKey, y < 16 := by
              intro y hy
              have hcat := List.dropLast_append_getLast hne
              rw [← hcat] at hy
              rcases List.mem_append.mp hy with hy2 | hy2
              · exact hsmall y hy2
              · have hgl := List.getLast?_eq_getLast nKey hne
                rw [hLx] at hgl
                injection hgl with hgl
                simp only [List.mem_singleton] at hy2
                omega
            have hvd : validKey (key.drop nKey.length) = true :=
              validKey_drop key nKey.length hvk (by omega)
            obtain ⟨hwfc, hhfc, hcval, hcnull, hdirty⟩ :=
              ih nVal (key.drop nKey.length) d1 child hhfv hwfv hvd hdel
            have hchnull : child.isNull = false := hcnull hvfull
            by_cases hd1 : (!d1) = true
            · rw [if_pos hd1] at h
              injection h with h
              injection h with hd hm
              subst hm
              exact ⟨hwf, hhf, rfl, fun hf => by simp [Node.isFull] at hf,
                fun _ => rfl⟩
            · rw [if_neg hd1] at h
              cases hcs : child.asShort with
              | some p2 =>
                obtain ⟨ck, cv⟩ := p2
                simp only [hcs] at h
                injection h with h
                injection h with hd hm
                subst hm
                have hceq : child = .short ck cv := asShort_some child ck cv hcs
                subst hceq
                obtain ⟨hne2, hsmall2, hwfcv, hshape2⟩ := WF_short_parts ck cv hwfc
                have hhfcv : hashFree cv = true := by simpa [hashFree] using hhfc
                have happne : nKey ++ ck ≠ [] := by
                  simp [hne]
                have happsmall : ∀ y ∈ (nKey ++ ck).dropLast, y < 16 := by
                  intro y hy
                  rw [List.dropLast_append_of_ne_nil nKey hne2] at hy
                  rcases List.mem_append.mp hy with hy2 | hy2
                  · exact hallk y hy2
                  · exact hsmall2 y hy2
                have happL : (nKey ++ ck).getLast? = ck.getLast? :=
                  List.getLast?_append_of_ne_nil nKey hne2
                refine ⟨?_, ?_, rfl, fun _ => rfl, fun hdf => ?_⟩
                · rcases hshape2 with ⟨hL16, hvv⟩ | ⟨y, hLy, hylt, hfhy⟩
                  · exact WF_short_leaf _ _ happne happsmall (by
                      rw [happL]; exact hL16) hvv
                  · exact WF_short_ext _ _ y happne happsmall (by
                      rw [happL]; exact hLy) hylt hfhy hwfcv
                · simp only [hashFree]
                  exact hhfcv
                · rw [← hd] at hdf
                  simp at hdf
              | none =>
                simp only [hcs] at h
                injection h with h
                injection h with hd hm
                subst hm
                have hcfull : child.isFull = true :=
                  shape_full_of child hcval hchnull hcs hhfc
                refine ⟨WF_short_ext nKey child x hne hsmall hLx hxlt (by
                  rw [hcfull]; rfl) hwfc, ?_, rfl, fun _ => rfl, fun hdf => ?_⟩
                · simp only [hashFree]
                  exact hhfc
                · rw [← hd] at hdf
                  simp at hdf
    | full ch =>
      simp only [] at h
      cases key with
      | nil => simp at h
      | cons k0 rest =>
        simp only [] at h
        by_cases hlen : ch.length ≤ k0
        · rw [if_pos hlen] at h
          simp at h
        · rw [if_neg hlen] at h
          cases hdel : delete db f (ch.getD k0 .null) rest with
          | none => simp only [hdel] at h; simp at h
          | some p =>
            obtain ⟨d1, nn⟩ := p
            simp only [hdel] at h
            obtain ⟨hfull, hcnt, hwfc⟩ := WF_full_parts ch hwf
            have hhfc : hashFreeChildren ch = true := by simpa [hashFree] using hhf
            by_cases hd1 : (!d1) = true
            · rw [if_pos hd1] at h
              injection h with h
              injection h with hd hm
              subst hm
              exact ⟨hwf, hhf, rfl, fun _ => rfl, fun _ => rfl⟩
            · rw [if_neg hd1] at h
              have hd1t : d1 = true := by
                cases d1
                · simp at hd1
                · rfl
              -- a clean-null child cannot produce a dirty delete
              have holdnn : (ch.getD k0 .null).isNull = false := by
                cases holdc : ch.getD k0 .null with
                | null =>
                  rw [holdc] at hdel
                  cases f with
                  | zero => simp [delete] at hdel
                  | succ f2 =>
                    rw [delete_nil_eq] at hdel
                    injection hdel with hdel
                    injection hdel with hdd hdn
                    rw [← hdd] at hd1t
                    cases hd1t
                | value v => rfl
                | short a b => rfl
                | full c => rfl
                | hash hh => rfl
              by_cases hnnn : (!nn.isNull) = true
              · rw [if_pos hnnn] at h
                injection h with h
                injection h with hd hm
                subst hm
                -- the remaining key cannot be empty: a child at slot 16 is a
                -- value (or nil) and deleting from it returns nil
                have hrest : rest ≠ [] := by
                  intro he
                  subst he
                  have hk016 : k0 = 16 := by
                    have := validKey_last [k0] hvk
                    simpa using this
                  have hpos := WFchildren_pos ch 0 k0 hwfc (by omega)
                  rw [if_neg (by omega)] at hpos
                  cases hc2 : ch.getD k0 .null with
                  | null =>
                    rw [hc2] at holdnn
                    cases holdnn
                  | value v =>
                    rw [hc2] at hdel
                    cases f with
                    | zero => simp [delete] at hdel
                    | succ f2 =>
                      rw [delete_value_eq] at hdel
                      injection hdel with hdel
                      injection hdel with hdd hdn
                      rw [← hdn] at hnnn
                      simp [Node.isNull] at hnnn
                  | short a b =>
                    rw [hc2] at hpos
                    simp [Node.isNull, Node.isValue] at hpos
                  | full c =>
                    rw [hc2] at hpos
                    simp [Node.isNull, Node.isValue] at hpos
                  | hash hh =>
                    rw [hc2] at hpos
                    simp [Node.isNull, Node.isValue] at hpos
                have hk0lt : k0 < 16 := by
                  obtain ⟨hsplit, hsmallk, _⟩ := validKey_split (k0 :: rest) hvk
                  apply hsmallk
                  rw [List.dropLast_cons_of_ne_nil hrest]
                  exact List.mem_cons_self k0 _
                have hvrest : validKey rest = true := by
                  have h2 := validKey_drop (k0 :: rest) 1 hvk (by
                    simp only [List.length_cons]
                    cases rest with
                    | nil => exact absurd rfl hrest
                    | cons a b => simp)
                  simpa using h2
                obtain ⟨hwfnn, hhfnn, hnval, hnnull2, hdirty2⟩ :=
                  ih (ch.getD k0 .null) rest d1 nn (hashFreeChildren_getD ch k0 hhfc)
                    (WFchildren_getD ch 0 k0 hwfc) hvrest hdel
                refine ⟨?_, ?_, rfl, fun _ => rfl, fun hdf => ?_⟩
                · apply WF_full_intro
                  · rw [List.length_set]
                    exact hfull
                  · rw [nonNilIdx_length_countP]
                    rw [nonNilIdx_length_countP] at hcnt
                    have hbal := countP_set_balance ch k0 nn (fun c => !c.isNull)
                      (by omega)
                    have hle : (if (!(ch.getD k0 Node.null).isNull) = true
                        then 1 else 0) ≤ 1 := by
                      split <;> omega
                    simp only [hnnn, if_true] at hbal
                    omega
                  · exact WFchildren_set ch 0 k0 nn hwfc hwfnn (by
                      rw [if_pos (by omega)]
                      exact hnval)
                · simp only [hashFree]
                  exact hashFreeChildren_set ch k0 nn hhfc hhfnn
                · rw [← hd] at hdf
                  simp at hdf
              · rw [if_neg hnnn] at h
                have hnn0 : nn = .null := by
                  cases hb : nn.isNull
                  · rw [hb] at hnnn
                    simp at hnnn
                  · exact isNull_node nn hb
                subst hnn0
                rw [nonNilIdx_length_countP] at hcnt
                have hbal := countP_set_balance ch k0 .null (fun c => !c.isNull)
                  (by omega)
                have e1 : (if (!(ch.getD k0 Node.null).isNull) = true then 1 else 0)
                    = 1 := by
                  rw [holdnn]
                  decide
                have e2 : (if (!Node.null.isNull) = true then 1 else 0) = 0 := rfl
                simp only [e1, e2] at hbal
                cases hscan : nonNilIdx (ch.set k0 Node.null) with
                | nil =>
                  exfalso
                  have hlen0 := nonNilIdx_length_countP (ch.set k0 Node.null)
                  rw [hscan] at hlen0
                  simp only [List.length_nil] at hlen0
                  omega
                | cons pos tl =>
                  cases tl with
                  | cons q tl2 =>
                    simp only [hscan] at h
                    injection h with h
                    injection h with hd hm
                    subst hm
                    refine ⟨?_, ?_, rfl, fun _ => rfl, fun hdf => ?_⟩
                    · apply WF_full_intro
                      · rw [List.length_set]
                        exact hfull
                      · rw [hscan]
                        simp
                      · exact WFchildren_set ch 0 k0 .null hwfc rfl (by
                          split
                          · rfl
                          · rfl)
                    · simp only [hashFree]
                      exact hashFreeChildren_set ch k0 .null hhfc rfl
                    · rw [← hd] at hdf
                      simp at hdf
                  | nil =>
                    simp only [hscan] at h
                    have hmem : pos ∈ nonNilIdx (ch.set k0 Node.null) := by
                      rw [hscan]
                      exact List.mem_cons_self _ _
                    rw [nonNilIdx_eq_from] at hmem
                    obtain ⟨_, hposlt, hposnn⟩ :=
                      nonNilIdxFrom_mem (ch.set k0 Node.null) 0 pos hmem
                    rw [Nat.sub_zero] at hposlt hposnn
                    rw [List.length_set] at hposlt
                    have hposk0 : pos ≠ k0 := by
                      intro e
                      subst e
                      rw [getD_set_eq ch pos Node.null (by omega)] at hposnn
                      simp [Node.isNull] at hposnn
                    have hgd : (ch.set k0 Node.null).getD pos .null =
                        ch.getD pos .null :=
                      getD_set_ne ch k0 pos Node.null (fun e => hposk0 e.symm)
                    rw [hgd] at hposnn
                    have hwfpos := WFchildren_getD ch 0 pos hwfc
                    have hhfpos := hashFreeChildren_getD ch pos hhfc
                    have hpred := WFchildren_pos ch 0 pos hwfc (by omega)
                    by_cases hp16 : pos = 16
                    · rw [if_neg (by omega)] at h
                      subst hp16
                      injection h with h
                      injection h with hd hm
                      subst hm
                      rw [if_neg (by omega)] at hpred
                      have hval : (ch.getD 16 .null).isValue = true := by
                        rcases Bool.or_eq_true_iff.mp hpred with h1 | h1
                        · rw [h1] at hposnn
                          cases hposnn
                        · exact h1
                      rw [hgd]
                      refine ⟨WF_short_leaf [16] _ (by simp) (by simp) rfl hval,
                        ?_, rfl, fun _ => rfl, fun hdf => ?_⟩
                      · simp only [hashFree]
                        exact hhfpos
                      · rw [← hd] at hdf
                        simp at hdf
                    · rw [if_pos hp16] at h
                      rw [hgd, resolve_of_hashFree db _ hhfpos] at h
                      rw [if_pos (by omega)] at hpred
                      cases hcs : (ch.getD pos .null).asShort with
                      | some p3 =>
                        obtain ⟨ck, cv⟩ := p3
                        simp only [hcs] at h
                        injection h with h
                        injection h with hd hm
                        subst hm
                        have hceq := asShort_some _ ck cv hcs
                        rw [hceq] at hwfpos hhfpos
                        obtain ⟨hne2, hsmall2, hwfcv, hshape2⟩ :=
                          WF_short_parts ck cv hwfpos
                        have hhfcv : hashFree cv = true := by
                          simpa [hashFree] using hhfpos
                        have hLcons : (pos :: ck).getLast? = ck.getLast? := by
                          have hkey2 : pos :: ck = [pos] ++ ck := rfl
                          rw [hkey2]
                          exact List.getLast?_append_of_ne_nil [pos] hne2
                        have hsmallcons : ∀ y ∈ (pos :: ck).dropLast, y < 16 := by
                          intro y hy
                          rw [List.dropLast_cons_of_ne_nil hne2] at hy
                          rcases List.mem_cons.mp hy with rfl | hy2
                          · omega
                          · exact hsmall2 y hy2
                        refine ⟨?_, ?_, rfl, fun _ => rfl, fun hdf => ?_⟩
                        · rcases hshape2 with ⟨hL16, hvv⟩ | ⟨y, hLy, hylt, hfhy⟩
                          · exact WF_short_leaf _ _ (by simp) hsmallcons (by
                              rw [hLcons]
                              exact hL16) hvv
                          · exact WF_short_ext _ _ y (by simp) hsmallcons (by
                              rw [hLcons]
                              exact hLy) hylt hfhy hwfcv
                        · simp only [hashFree]
                          exact hhfcv
                        · rw [← hd] at hdf
                          simp at hdf
                      | none =>
                        simp only [hcs] at h
                        injection h with h
                        injection h with hd hm
                        subst hm
                        have hposfull : (ch.getD pos .null).isFull = true :=
                          shape_full_of _ hpred hposnn hcs hhfpos
                        refine ⟨WF_short_ext [pos] _ pos (by simp) (by simp) rfl
                          (by omega) (by rw [hposfull]; rfl) hwfpos,
                          ?_, rfl, fun _ => rfl, fun hdf => ?_⟩
                        · simp only [hashFree]
                          exact hhfpos
                        · rw [← hd] at hdf
                          simp at hdf

end MPT
